import Mathlib

/-!
# Swaply backend: coupon extraction, matching and search

A shallow embedding of `src/processDocument.js` and of the `/matches/:uid` and
`/search` handlers of `src/routes/coupons.js`, followed by the properties
established about them.

JavaScript strings are Lean `String`s. The numbers of the score are IEEE binary64
values kept as an exact mantissa and exponent, with every rounding step explicit;
time values are integers. The engine builtins `toLowerCase`, `Date.parse` and
`toISOString`, and whether `JSON.stringify` exhausts the call stack on a value,
are parameters of the handlers, collected in `JsEngine`, so that what is proved
holds for every engine; `refEngine` is a concrete instance used to evaluate the
handlers on concrete inputs. `JSON.parse` is a recursive-descent reader of the
JSON grammar.
-/

namespace Swaply

/-! ## Binary64 arithmetic -/

/-- A non-negative binary64 value `m * 2 ^ e`. -/
structure F64 where
  m : Nat
  e : Int
  deriving DecidableEq, Repr

/-- Doubles `p / q` (tracking the exponent) until `2 ^ 52 ≤ p / q`. -/
def scaleUp : Nat → Nat → Nat → Int → Nat × Int
  | 0, p, _, e => (p, e)
  | fuel + 1, p, q, e => if p < 2 ^ 52 * q then scaleUp fuel (2 * p) q (e - 1) else (p, e)

/-- Halves `p / q` (tracking the exponent) until `p / q < 2 ^ 53`. -/
def scaleDown : Nat → Nat → Nat → Int → Nat × Int
  | 0, _, q, e => (q, e)
  | fuel + 1, p, q, e => if 2 ^ 53 * q ≤ p then scaleDown fuel p (2 * q) (e + 1) else (q, e)

/-- The integer nearest to `p / q`, ties going to the even one. -/
def roundHalfEven (p q : Nat) : Nat :=
  let d := p / q
  let r := p % q
  if 2 * r < q then d else if q < 2 * r then d + 1 else if d % 2 = 0 then d else d + 1

/-- The binary64 value nearest to the rational `p / q` (round to nearest, ties to
even, 53 significant bits), for values in the normal range. -/
def toBinary64 (p q : Nat) : F64 :=
  if p = 0 then ⟨0, 0⟩
  else
    let up := scaleUp 1100 p q 0
    let down := scaleDown 1100 up.1 q up.2
    ⟨roundHalfEven up.1 down.1, down.2⟩

/-- Numerator of the exact value of a double, over `F64.den`. -/
def F64.num (x : F64) : Nat := if 0 ≤ x.e then x.m * 2 ^ x.e.toNat else x.m

/-- Denominator of the exact value of a double. -/
def F64.den (x : F64) : Nat := if 0 ≤ x.e then 1 else 2 ^ (-x.e).toNat

/-- The `+` of binary64: the exact sum, rounded. -/
def F64.add (x y : F64) : F64 := toBinary64 (x.num * y.den + y.num * x.den) (x.den * y.den)

/-- The `*` of binary64: the exact product, rounded. -/
def F64.mul (x y : F64) : F64 := toBinary64 (x.num * y.num) (x.den * y.den)

/-- `Math.round` on a non-negative double: the nearest integer, halves going up. -/
def mathRound (x : F64) : Nat := (2 * x.num + x.den) / (2 * x.den)

/-- The literal `0.8`. -/
def PLATFORM_WEIGHT : F64 := toBinary64 8 10

/-- The literal `0.15`. -/
def CATEGORY_WEIGHT : F64 := toBinary64 15 100

/-- The score computed in the `reduce` callback of `/matches/:uid`:
`Math.round(((platformMatch ? PLATFORM_WEIGHT : 0) + (categoryMatch ? CATEGORY_WEIGHT : 0)) * 100)`. -/
def computeScore (platformMatch categoryMatch : Bool) : Nat :=
  mathRound
    (F64.mul
      (F64.add (if platformMatch then PLATFORM_WEIGHT else toBinary64 0 1)
        (if categoryMatch then CATEGORY_WEIGHT else toBinary64 0 1))
      (toBinary64 100 1))

/-! ## JSON values -/

/-- A JSON value as `JSON.parse` builds it. A string is its sequence of UTF-16
code units; a number is kept as the numeral it was read from; an object lists its
members as they occur in the text. -/
inductive Json where
  | null
  | bool (b : Bool)
  | num (numeral : String)
  | str (units : List Nat)
  | arr (items : List Json)
  | obj (members : List (List Nat × Json))
  deriving Repr

mutual

/-- The nesting depth of a value: 0 for a scalar, one more than its deepest
element or member for an array or an object. -/
def Json.depth : Json → Nat
  | .arr items => depthItems items + 1
  | .obj members => depthMembers members + 1
  | _ => 0

/-- The greatest depth among the elements of an array. -/
def depthItems : List Json → Nat
  | [] => 0
  | j :: rest => max j.depth (depthItems rest)

/-- The greatest depth among the members of an object. -/
def depthMembers : List (List Nat × Json) → Nat
  | [] => 0
  | m :: rest => max m.2.depth (depthMembers rest)

end

/-! ## Engine builtins -/

/-- Builtins of the JavaScript engine and of the store client whose result the
handlers only pass along. -/
structure JsEngine where
  /-- `String.prototype.toLowerCase`. -/
  toLowerCase : String → String
  /-- The empty string has no letter to change. -/
  toLowerCase_empty : toLowerCase "" = ""
  /-- `Date.parse`: the time value in milliseconds, `none` for `NaN`. -/
  dateParse : String → Option Int
  /-- `Date.prototype.toISOString` of a valid time value. -/
  toISOString : Int → String
  /-- The time value of `new Date(x)` for a store timestamp object `x` with the
  given `_seconds` (through the object's primitive conversion), `none` for `NaN`. -/
  dateOfTimestamp : Int → Option Int
  /-- Whether `JSON.stringify(value, null, 2)` throws on a parsed value, as it does
  with a `RangeError` when the nesting of the value exhausts the call stack. -/
  stringifyThrows : Json → Bool

/-- `Array.prototype.sort` inserts stably: `a` goes in front of the first element
it does not compare greater than. -/
def insertSorted {α : Type} (le : α → α → Bool) (a : α) : List α → List α
  | [] => [a]
  | b :: l => if le a b then a :: b :: l else b :: insertSorted le a l

/-- `Array.prototype.sort(cmp)`, a stable comparison sort; `cmp a b` is the
number the comparator returns, `none` for `NaN`, which the sort reads as `+0`.
For a comparator that is a consistent ordering of the elements every stable sort
gives this result. For one that is not, the standard leaves the order to the
implementation, and this is the order insertion gives. -/
def arraySort {α : Type} (cmp : α → α → Option Int) (l : List α) : List α :=
  l.foldr (insertSorted (fun a b => decide ((cmp a b).getD 0 ≤ 0))) []

/-- The `-` of two time values, `NaN` when either is. -/
def numSub : Option Int → Option Int → Option Int
  | some a, some b => some (a - b)
  | _, _ => none

/-! ## Data model -/

/-- The `expiry_date` field of a stored coupon. -/
inductive ExpiryField where
  /-- The field is absent. -/
  | missing
  /-- A string. -/
  | text (s : String)
  /-- A store timestamp object with the given `_seconds`. -/
  | timestamp (seconds : Int)
  deriving DecidableEq, Repr

/-- The `amount` property of a structured coupon value. -/
inductive Amount where
  | missing
  | text (s : String)
  /-- A number that is a safe integer: a sign and a magnitude below `2 ^ 53`. -/
  | number (negative : Bool) (magnitude : Fin 9007199254740992)
  deriving DecidableEq, Repr

/-- The `value` field of a stored coupon. -/
inductive ValueField where
  | missing
  /-- A plain string such as `"10%"`. -/
  | text (s : String)
  /-- An object, with its `type` and `amount` properties. -/
  | structured (type : Option String) (amount : Amount)
  deriving DecidableEq, Repr

/-- A coupon as the handlers see it: `{ id: doc.id, ...doc.data() }`. An absent
string field is `none`. -/
structure Coupon where
  id : String
  owner_uid : Option String
  platform : Option String
  category : Option String
  value : ValueField
  expiry_date : ExpiryField
  deriving DecidableEq, Repr

/-- The preference fields of a user document; `none` is an absent field. -/
structure UserPrefs where
  prefered_platforms : Option (List String)
  prefered_categories : Option (List String)
  deriving DecidableEq, Repr

/-- An element of the match list: `{ ...coupon, score }`. -/
structure MatchResult where
  coupon : Coupon
  score : Nat
  deriving DecidableEq, Repr

/-- What a handler sends: a JSON body with status 200, or a status and an
`error` message. -/
inductive Response (α : Type) where
  | ok (body : α)
  | error (status : Nat) (message : String)
  deriving DecidableEq, Repr

/-! ## GET /matches/:uid -/

/-- `list.includes(field)` for a list of strings and a possibly absent field. -/
def includes (list : List String) (field : Option String) : Bool :=
  match field with
  | some s => list.contains s
  | none => false

/-- `new Date(coupon.expiry_date)` as a time value, `none` for an invalid date. -/
def newDate (js : JsEngine) : ExpiryField → Option Int
  | .missing => none
  | .text s => js.dateParse s
  | .timestamp seconds => js.dateOfTimestamp seconds

/-- The `reduce` callback of the match handler, folded over the coupons. -/
def reduceMatches (platforms categories : List String) : List Coupon → List MatchResult
  | [] => []
  | coupon :: rest =>
    let platformMatch := includes platforms coupon.platform
    let categoryMatch := includes categories coupon.category
    if !platformMatch && !categoryMatch then reduceMatches platforms categories rest
    else ⟨coupon, computeScore platformMatch categoryMatch⟩ ::
      reduceMatches platforms categories rest

/-- The handler of `GET /matches/:uid`; `user` is the user document, `none` when
it does not exist, and `corpus` the coupons collection. -/
def matchesHandler (js : JsEngine) (user : Option UserPrefs) (corpus : List Coupon)
    (uid : String) : Response (List MatchResult) :=
  match user with
  | none => .error 404 "User not found"
  | some prefs =>
    let prefered_platforms := prefs.prefered_platforms.getD []
    let prefered_categories := prefs.prefered_categories.getD []
    if prefered_platforms.length = 0 ∧ prefered_categories.length = 0 then .ok []
    else
      let allCoupons := corpus.filter (fun coupon => decide (coupon.owner_uid ≠ some uid))
      let matchList := reduceMatches prefered_platforms prefered_categories allCoupons
      .ok (arraySort
        (fun a b => numSub (newDate js a.coupon.expiry_date) (newDate js b.coupon.expiry_date))
        matchList)

/-! ## GET /search -/

/-- The code points matched by `\s` and removed by `String.prototype.trim`:
the white space and line terminator code points of ECMAScript. -/
def isJsWhitespace (c : Char) : Bool :=
  let n := c.toNat
  n = 9 || n = 10 || n = 11 || n = 12 || n = 13 || n = 32 || n = 0xA0 || n = 0x1680 ||
    (0x2000 ≤ n && n ≤ 0x200A) || n = 0x2028 || n = 0x2029 || n = 0x202F || n = 0x205F ||
    n = 0x3000 || n = 0xFEFF

/-- The scan of `split(/\s+/)`: `cur` is the piece being read (reversed) and
`inSep` tells that the previous character belonged to a separator. -/
def splitScan : List Char → List Char → Bool → List String
  | [], cur, _ => [String.mk cur.reverse]
  | c :: rest, cur, inSep =>
    if isJsWhitespace c then
      if inSep then splitScan rest cur true
      else String.mk cur.reverse :: splitScan rest [] true
    else splitScan rest (c :: cur) false

/-- The array `s.split(/\s+/)`: the pieces between maximal runs of white space;
a run at the start or at the end of `s` leaves an empty piece there. -/
def splitWhitespace (s : String) : List String := splitScan s.toList [] false

/-- Whether `kw` occurs in the character list `f`. -/
def occursIn (kw : List Char) : List Char → Bool
  | [] => kw.isPrefixOf []
  | c :: f => kw.isPrefixOf (c :: f) || occursIn kw f

/-- The call `f.includes(kw)` on strings. -/
def strIncludes (f kw : String) : Bool := occursIn kw.toList f.toList

/-- A `Date` object: a time value in milliseconds, or an invalid date. -/
inductive DateObj where
  | valid (t : Int)
  | invalid
  deriving DecidableEq, Repr

/-- The `Date` object that `new Date(t)` makes of a number: out of the range of
time values it is invalid. -/
def dateOfNumber (t : Int) : DateObj :=
  if t.natAbs ≤ 8640000000000000 then .valid t else .invalid

/-- The `__expiryDate` the `map` callback of the search handler computes:
`null` (`none`) unless the expiry is a string or a timestamp with a truthy
`_seconds`. -/
def expiryDateOf (js : JsEngine) : ExpiryField → Option DateObj
  | .text s =>
    match js.dateParse s with
    | some t => some (.valid t)
    | none => some .invalid
  | .timestamp seconds => if seconds ≠ 0 then some (dateOfNumber (seconds * 1000)) else none
  | .missing => none

/-- The property `coupon.value?.type`. -/
def valueType : ValueField → Option String
  | .structured type _ => type
  | _ => none

/-- The property `coupon.value?.amount`. -/
def valueAmount : ValueField → Amount
  | .structured _ amount => amount
  | _ => .missing

/-- The string `String(amount || "")`: empty for an absent amount, for the empty
string and for zero, which are falsy; the decimal numeral of any other safe
integer. -/
def amountString : Amount → String
  | .missing => ""
  | .text s => s
  | .number negative magnitude =>
    if magnitude.val = 0 then ""
    else if negative then "-" ++ toString magnitude.val
    else toString magnitude.val

/-- The `fields` array of the `filter` callback; `none` when building it throws,
which `toISOString` does on an invalid date. -/
def searchFields (js : JsEngine) (coupon : Coupon) (expiryDate : Option DateObj) :
    Option (List String) :=
  let head := [js.toLowerCase (coupon.platform.getD ""),
    js.toLowerCase (coupon.category.getD ""),
    js.toLowerCase ((valueType coupon.value).getD ""),
    amountString (valueAmount coupon.value)]
  match expiryDate with
  | none => some (head ++ [""])
  | some (.valid t) => some (head ++ [js.toLowerCase (js.toISOString t)])
  | some .invalid => none

/-- What the `filter` callback returns once `fields` is built:
`keywords.some((kw) => fields.some((f) => f.includes(kw)))`. -/
def keywordHit (keywords fields : List String) : Bool :=
  keywords.any (fun kw => fields.any (fun f => strIncludes f kw))

/-- The `filter` call of the search handler over the mapped coupons; `none` when
the callback throws. -/
def filterResults (js : JsEngine) (keywords : List String) :
    List (Coupon × Option DateObj) → Option (List (Coupon × Option DateObj))
  | [] => some []
  | entry :: rest =>
    match searchFields js entry.1 entry.2 with
    | none => none
    | some fields =>
      match filterResults js keywords rest with
      | none => none
      | some kept =>
        if keywordHit keywords fields then some (entry :: kept) else some kept

/-- The number a `__expiryDate` converts to in a subtraction: `null` is `0`, an
invalid date `NaN`. -/
def dateToNumber : Option DateObj → Option Int
  | none => some 0
  | some (.valid t) => some t
  | some .invalid => none

/-- The handler of `GET /search`; `q` and `sort` are the query parameters, `none`
when absent, and `corpus` the coupons collection. -/
def searchHandler (js : JsEngine) (corpus : List Coupon) (q sort : Option String) :
    Response (List Coupon) :=
  match q with
  | none => .error 400 "Missing query string (q)"
  | some q =>
    if q = "" then .error 400 "Missing query string (q)"
    else
      let keywords := splitWhitespace (js.toLowerCase q)
      let mapped := corpus.map (fun data => (data, expiryDateOf js data.expiry_date))
      match filterResults js keywords mapped with
      | none => .error 500 "Search failed"
      | some results =>
        let sorted :=
          if sort = some "asc" then
            arraySort (fun a b => numSub (dateToNumber a.2) (dateToNumber b.2)) results
          else if sort = some "desc" then
            arraySort (fun a b => numSub (dateToNumber b.2) (dateToNumber a.2)) results
          else results
        .ok (sorted.map (fun entry => entry.1))

/-- Whether the `filter` callback keeps a coupon: it does when `fields` can be
built and some keyword occurs in some field. -/
def matchesQuery (js : JsEngine) (keywords : List String) (coupon : Coupon) : Bool :=
  match searchFields js coupon (expiryDateOf js coupon.expiry_date) with
  | some fields => keywordHit keywords fields
  | none => false

/-- The number the sort of the search handler compares a coupon by: the time value
of its parsed expiry date, and `0` for a coupon without one, which is what `null`
converts to. -/
def expiryTime (js : JsEngine) (coupon : Coupon) : Int :=
  (dateToNumber (expiryDateOf js coupon.expiry_date)).getD 0

/-! ## A reference engine -/

/-- The value of a decimal digit. -/
def digitValue (c : Char) : Option Nat :=
  if 48 ≤ c.toNat ∧ c.toNat ≤ 57 then some (c.toNat - 48) else none

/-- The number written by a list of decimal digits. -/
def readDigits : List Char → Nat → Option Nat
  | [], acc => some acc
  | c :: rest, acc =>
    match digitValue c with
    | some d => readDigits rest (10 * acc + d)
    | none => none

/-- Days from 1970-01-01 to the given day of the proleptic Gregorian calendar. -/
def daysFromCivil (year month day : Int) : Int :=
  let y := if month ≤ 2 then year - 1 else year
  let era := y / 400
  let yoe := y - era * 400
  let mp := (month + 9) % 12
  let doy := (153 * mp + 2) / 5 + day - 1
  let doe := yoe * 365 + yoe / 4 - yoe / 100 + doy
  era * 146097 + doe - 719468

/-- The year, month and day of the proleptic Gregorian calendar that lie the
given number of days after 1970-01-01. -/
def civilFromDays (days : Int) : Int × Int × Int :=
  let z := days + 719468
  let era := z / 146097
  let doe := z - era * 146097
  let yoe := (doe - doe / 1460 + doe / 36524 - doe / 146096) / 365
  let doy := doe - (365 * yoe + yoe / 4 - yoe / 100)
  let mp := (5 * doy + 2) / 153
  let day := doy - (153 * mp + 2) / 5 + 1
  let month := if mp < 10 then mp + 3 else mp - 9
  (if month ≤ 2 then yoe + era * 400 + 1 else yoe + era * 400, month, day)

/-- The number of days of a month. -/
def daysInMonth (year month : Nat) : Nat :=
  if month = 2 then
    if year % 4 = 0 ∧ (year % 100 ≠ 0 ∨ year % 400 = 0) then 29 else 28
  else if month = 4 ∨ month = 6 ∨ month = 9 ∨ month = 11 then 30
  else 31

/-- The time value of a calendar date and a time of day in UTC, if they exist. -/
def makeTime (year month day hour minute second ms : Nat) : Option Int :=
  if 1 ≤ month ∧ month ≤ 12 ∧ 1 ≤ day ∧ day ≤ daysInMonth year month ∧ hour < 24 ∧
      minute < 60 ∧ second < 60 then
    some (daysFromCivil year month day * 86400000 +
      ((hour * 60 + minute) * 60 + second) * 1000 + ms)
  else none

/-- `Date.parse` on the two forms `YYYY-MM-DD` and `YYYY-MM-DDTHH:mm:ss.sssZ` of
the ECMAScript date-time string format; any other string is unparseable here. -/
def isoDateParse (s : String) : Option Int :=
  match s.toList with
  | [y1, y2, y3, y4, '-', m1, m2, '-', d1, d2] => do
    let year ← readDigits [y1, y2, y3, y4] 0
    let month ← readDigits [m1, m2] 0
    let day ← readDigits [d1, d2] 0
    makeTime year month day 0 0 0 0
  | [y1, y2, y3, y4, '-', m1, m2, '-', d1, d2, 'T', h1, h2, ':', n1, n2, ':', s1, s2, '.',
      f1, f2, f3, 'Z'] => do
    let year ← readDigits [y1, y2, y3, y4] 0
    let month ← readDigits [m1, m2] 0
    let day ← readDigits [d1, d2] 0
    let hour ← readDigits [h1, h2] 0
    let minute ← readDigits [n1, n2] 0
    let second ← readDigits [s1, s2] 0
    let ms ← readDigits [f1, f2, f3] 0
    makeTime year month day hour minute second ms
  | _ => none

/-- The last `width` decimal digits of `n`, most significant first. -/
def padDigits : Nat → Nat → List Char
  | 0, _ => []
  | width + 1, n => padDigits width (n / 10) ++ [Char.ofNat (48 + n % 10)]

/-- `Date.prototype.toISOString` of a time value: `YYYY-MM-DDTHH:mm:ss.sssZ`, the
year signed and six digits long outside 0 to 9999. -/
def isoString (t : Int) : String :=
  let days := t / 86400000
  let rest := (t % 86400000).toNat
  let civil := civilFromDays days
  let year :=
    if 0 ≤ civil.1 ∧ civil.1 ≤ 9999 then padDigits 4 civil.1.toNat
    else (if civil.1 < 0 then '-' else '+') :: padDigits 6 civil.1.natAbs
  String.mk (year ++ '-' :: padDigits 2 civil.2.1.toNat ++ '-' :: padDigits 2 civil.2.2.toNat ++
    'T' :: padDigits 2 (rest / 3600000) ++ ':' :: padDigits 2 (rest / 60000 % 60) ++
    ':' :: padDigits 2 (rest / 1000 % 60) ++ '.' :: padDigits 3 (rest % 1000) ++ ['Z'])

/-- An engine for evaluating the handlers on concrete inputs: lowercasing is that
of ASCII letters, date strings are read by `isoDateParse`, a timestamp object
passed to `new Date` gives an invalid date, and `JSON.stringify` exhausts the
stack on values nested more than 4000 levels deep. -/
def refEngine : JsEngine where
  toLowerCase := fun s => String.mk (s.toList.map Char.toLower)
  toLowerCase_empty := rfl
  dateParse := isoDateParse
  toISOString := isoString
  dateOfTimestamp := fun _ => none
  stringifyThrows := fun value => decide (4000 < value.depth)

/-! ## processDocument.js -/

/-- The template literal `PROMPT_TEMPLATE`. -/
def PROMPT_TEMPLATE : String :=
  "\n" ++
    "You are an advanced document parsing AI engine. Your sole function is to analyze the " ++
    "provided document and extract all promotional coupon offers.\n" ++
    "\n" ++
    "You MUST return the data as a single, valid JSON object that contains one key: " ++
    "\"coupons\". This key\x27s value must be a JSON array. Each object within the array " ++
    "must conform to the following exact schema:\n" ++
    "\n" ++
    "- \"platform\": (string) The name of the merchant or platform.\n" ++
    "- \"category\": (string) The type of coupons (example: Shopping, Food, etc)\n" ++
    "- \"summary\": (string) A concise one-sentence description of the offer.\n" ++
    "- \"coupon_code\": (string | null) The coupon code, or null if not present.\n" ++
    "- \"value\": (string) The discount rate or value of the coupon (eg: 100 rupees, " ++
    "10%,etc)\n" ++
    "- \"expiry_date\": (string) The expiration date in \"YYYY-MM-DD\" format.\n" ++
    "- \"source_document\": (string) The name of the file this was extracted from.\n" ++
    "\n" ++
    "If the document contains no coupons, return an empty array: \x7b\"coupons\": []\x7d.\n" ++
    "Only return the raw JSON object without any extra text or markdown formatting."

/-- Splits `text` around the first occurrence of `pat`, if there is one. -/
def splitAtFirst (pat : List Char) : List Char → Option (List Char × List Char)
  | [] => if pat.isPrefixOf [] then some ([], []) else none
  | c :: cs =>
    if pat.isPrefixOf (c :: cs) then some ([], (c :: cs).drop pat.length)
    else (splitAtFirst pat cs).map (fun r => (c :: r.1, r.2))

/-- The expansion of a replacement string when the pattern is a string, so that
there are no captures: `$$` is a dollar sign, `$&` the matched text, a dollar sign
and a backtick the text before the match, a dollar sign and an apostrophe the text
after it; every other character stands for itself. -/
def getSubstitution (matched before after : List Char) : List Char → List Char
  | [] => []
  | [c] => [c]
  | c :: d :: rest =>
    if c = '$' then
      if d = '$' then '$' :: getSubstitution matched before after rest
      else if d = '&' then matched ++ getSubstitution matched before after rest
      else if d = Char.ofNat 96 then before ++ getSubstitution matched before after rest
      else if d = Char.ofNat 39 then after ++ getSubstitution matched before after rest
      else c :: getSubstitution matched before after (d :: rest)
    else c :: getSubstitution matched before after (d :: rest)

/-- The call `text.replace(pattern, replacement)` with a string pattern: only the
first occurrence is replaced. -/
def stringReplace (text pattern replacement : String) : String :=
  match splitAtFirst pattern.toList text.toList with
  | none => text
  | some (before, after) =>
    String.mk (before ++ getSubstitution pattern.toList before after replacement.toList ++ after)

/-- The instruction text sent to the model:
`PROMPT_TEMPLATE.replace("source_document", '"' + originalName + '"')`. -/
def instructionText (originalName : String) : String :=
  stringReplace PROMPT_TEMPLATE "source_document" ("\"" ++ originalName ++ "\"")

/-- The method `trim` of strings, on the character list. -/
def trim (cs : List Char) : List Char :=
  ((cs.dropWhile isJsWhitespace).reverse.dropWhile isJsWhitespace).reverse

/-- The replacement of the leading fence by nothing: the regular expression is a
caret, three backticks, `json` and an optional line feed. -/
def stripLeadingFence (cs : List Char) : List Char :=
  if "```json".toList.isPrefixOf cs then
    match cs.drop 7 with
    | c :: rest => if c = '\n' then rest else c :: rest
    | [] => []
  else cs

/-- The replacement of the trailing fence by nothing: the regular expression is
an optional line feed, three backticks and the end of the input; the leftmost
match takes the line feed when there is one. -/
def stripTrailingFence (cs : List Char) : List Char :=
  if "\n```".toList.isSuffixOf cs then cs.take (cs.length - 4)
  else if "```".toList.isSuffixOf cs then cs.take (cs.length - 3)
  else cs

/-- The string handed to `JSON.parse`:
the response, trimmed, without leading and trailing fence. -/
def jsonString (responseText : String) : String :=
  String.mk (stripTrailingFence (stripLeadingFence (trim responseText.toList)))

/-! ## JSON.parse -/

/-- The UTF-16 code units of a character. -/
def utf16Units (c : Char) : List Nat :=
  if c.toNat < 0x10000 then [c.toNat]
  else [0xD800 + (c.toNat - 0x10000) / 0x400, 0xDC00 + (c.toNat - 0x10000) % 0x400]

/-- The UTF-16 code units of a string. -/
def utf16 (s : String) : List Nat := s.toList.flatMap utf16Units

/-- The white space of the JSON grammar. -/
def isJsonWhitespace (c : Char) : Bool :=
  c = ' ' || c = '\t' || c = '\n' || c = '\r'

/-- Drops leading JSON white space. -/
def skipWs : List Char → List Char
  | [] => []
  | c :: cs => if isJsonWhitespace c then skipWs cs else c :: cs

/-- The value of a hexadecimal digit. -/
def hexValue (c : Char) : Option Nat :=
  let n := c.toNat
  if 48 ≤ n ∧ n ≤ 57 then some (n - 48)
  else if 65 ≤ n ∧ n ≤ 70 then some (n - 55)
  else if 97 ≤ n ∧ n ≤ 102 then some (n - 87)
  else none

/-- The code unit of a one-letter escape. -/
def simpleEscape (c : Char) : Option Nat :=
  if c = '"' then some 34
  else if c = '\\' then some 92
  else if c = '/' then some 47
  else if c = 'b' then some 8
  else if c = 'f' then some 12
  else if c = 'n' then some 10
  else if c = 'r' then some 13
  else if c = 't' then some 9
  else none

/-- Reads a string after its opening quote: the code units and the text after
the closing quote. -/
def parseStringBody : List Char → Option (List Nat × List Char)
  | [] => none
  | c :: rest =>
    if c = '"' then some ([], rest)
    else if c = '\\' then
      match rest with
      | [] => none
      | e :: rest1 =>
        if e = 'u' then
          match rest1 with
          | h1 :: h2 :: h3 :: h4 :: rest2 =>
            match hexValue h1, hexValue h2, hexValue h3, hexValue h4, parseStringBody rest2 with
            | some a, some b, some c, some d, some r =>
              some ((((a * 16 + b) * 16 + c) * 16 + d) :: r.1, r.2)
            | _, _, _, _, _ => none
          | _ => none
        else
          match simpleEscape e, parseStringBody rest1 with
          | some unit, some r => some (unit :: r.1, r.2)
          | _, _ => none
    else if c.toNat < 0x20 then none
    else
      match parseStringBody rest with
      | some r => some (utf16Units c ++ r.1, r.2)
      | none => none

/-- Splits off the leading decimal digits. -/
def takeDigits : List Char → List Char × List Char
  | [] => ([], [])
  | c :: cs =>
    if c.isDigit then ((takeDigits cs).1.cons c, (takeDigits cs).2) else ([], c :: cs)

/-- Reads the integer part of a number: `0`, or a non-zero digit and more digits. -/
def parseInt (cs : List Char) : Option (List Char × List Char) :=
  match cs with
  | [] => none
  | c :: rest =>
    if c = '0' then some (['0'], rest)
    else if c.isDigit then some (takeDigits (c :: rest))
    else none

/-- Reads an optional fraction: a point and at least one digit. -/
def parseFrac (cs : List Char) : Option (List Char × List Char) :=
  match cs with
  | [] => some ([], [])
  | c :: rest =>
    if c = '.' then
      if (takeDigits rest).1.isEmpty then none
      else some (c :: (takeDigits rest).1, (takeDigits rest).2)
    else some ([], c :: rest)

/-- Reads the digits of an exponent after its sign. -/
def parseExpDigits (pre cs : List Char) : Option (List Char × List Char) :=
  if (takeDigits cs).1.isEmpty then none else some (pre ++ (takeDigits cs).1, (takeDigits cs).2)

/-- Reads an optional exponent: `e` or `E`, an optional sign and at least one
digit. -/
def parseExp (cs : List Char) : Option (List Char × List Char) :=
  match cs with
  | [] => some ([], [])
  | c :: rest =>
    if c = 'e' ∨ c = 'E' then
      match rest with
      | [] => none
      | s :: rest1 =>
        if s = '+' ∨ s = '-' then parseExpDigits [c, s] rest1 else parseExpDigits [c] (s :: rest1)
    else some ([], c :: rest)

/-- Reads a number after its optional minus sign. -/
def parseUnsigned (cs : List Char) : Option (List Char × List Char) :=
  match parseInt cs with
  | none => none
  | some i =>
    match parseFrac i.2 with
    | none => none
    | some f =>
      match parseExp f.2 with
      | none => none
      | some e => some (i.1 ++ f.1 ++ e.1, e.2)

/-- Reads a number: its numeral and the text after it. -/
def parseNumber (cs : List Char) : Option (List Char × List Char) :=
  match cs with
  | [] => none
  | c :: rest =>
    if c = '-' then
      match parseUnsigned rest with
      | some r => some (c :: r.1, r.2)
      | none => none
    else parseUnsigned (c :: rest)

mutual

/-- Reads a JSON value at the head of the text. The fuel bounds the depth of the
calls; going two calls deeper takes at least one character, so twice the length of
the text always suffices. -/
def parseValue : Nat → List Char → Option (Json × List Char)
  | 0, _ => none
  | fuel + 1, cs =>
    match cs with
    | [] => none
    | c :: rest =>
      if c = '\x7b' then
        match skipWs rest with
        | [] => none
        | d :: rest1 =>
          if d = '\x7d' then some (.obj [], rest1)
          else
            match parseMembers fuel (d :: rest1) with
            | some r => some (.obj r.1, r.2)
            | none => none
      else if c = '[' then
        match skipWs rest with
        | [] => none
        | d :: rest1 =>
          if d = ']' then some (.arr [], rest1)
          else
            match parseElements fuel (d :: rest1) with
            | some r => some (.arr r.1, r.2)
            | none => none
      else if c = '"' then
        match parseStringBody rest with
        | some r => some (.str r.1, r.2)
        | none => none
      else if "true".toList.isPrefixOf cs then some (.bool true, cs.drop 4)
      else if "false".toList.isPrefixOf cs then some (.bool false, cs.drop 5)
      else if "null".toList.isPrefixOf cs then some (.null, cs.drop 4)
      else
        match parseNumber cs with
        | some r => some (.num (String.mk r.1), r.2)
        | none => none

/-- Reads the elements of an array up to its closing bracket; the text starts at
an element. -/
def parseElements : Nat → List Char → Option (List Json × List Char)
  | 0, _ => none
  | fuel + 1, cs =>
    match parseValue fuel cs with
    | none => none
    | some v =>
      match skipWs v.2 with
      | [] => none
      | d :: rest =>
        if d = ',' then
          match parseElements fuel (skipWs rest) with
          | some r => some (v.1 :: r.1, r.2)
          | none => none
        else if d = ']' then some ([v.1], rest)
        else none

/-- Reads the members of an object up to its closing brace; the text starts at
the quote of a key. -/
def parseMembers : Nat → List Char → Option (List (List Nat × Json) × List Char)
  | 0, _ => none
  | fuel + 1, cs =>
    match cs with
    | [] => none
    | q :: rest =>
      if q = '"' then
        match parseStringBody rest with
        | none => none
        | some key =>
          match skipWs key.2 with
          | [] => none
          | colon :: rest1 =>
            if colon = ':' then
              match parseValue fuel (skipWs rest1) with
              | none => none
              | some v =>
                match skipWs v.2 with
                | [] => none
                | d :: rest2 =>
                  if d = ',' then
                    match parseMembers fuel (skipWs rest2) with
                    | some r => some ((key.1, v.1) :: r.1, r.2)
                    | none => none
                  else if d = '\x7d' then some ([(key.1, v.1)], rest2)
                  else none
            else none
      else none

end

/-- The function `JSON.parse` on a text: `none` when it throws a `SyntaxError`. -/
def jsonParse (text : String) : Option Json :=
  match parseValue (2 * text.length + 2) (skipWs text.toList) with
  | some r => if (skipWs r.2).isEmpty then some r.1 else none
  | none => none

/-- The object `{ error: "Failed to extract data from the document." }`. -/
def errorResult : Json :=
  .obj [(utf16 "error", .str (utf16 "Failed to extract data from the document."))]

/-- The function `extractCouponsFromDocument` from the model call on.
`generateContent` gives the text of the model's response to the instruction text
sent with the document, `none` when the call or reading its text throws. After
the parse the value is logged with `JSON.stringify(parsedJson, null, 2)`, inside
the `try`; when that throws, the `catch` block answers. -/
def extractCouponsFromDocument (js : JsEngine) (generateContent : String → Option String)
    (originalName : String) : Json :=
  match generateContent (instructionText originalName) with
  | none => errorResult
  | some responseText =>
    match jsonParse (jsonString responseText) with
    | some parsedJson => if js.stringifyThrows parsedJson then errorResult else parsedJson
    | none => errorResult

/-- The text of the template before and after its first `source_document`. -/
def promptParts : List Char × List Char :=
  (splitAtFirst "source_document".toList PROMPT_TEMPLATE.toList).getD ([], [])

/-! ## The result shape the specification asks for -/

/-- The value of a property of a parsed object: of members with the same key the
last one counts. -/
def Json.get (key : List Nat) : Json → Option Json
  | .obj members => (members.reverse.find? (fun m => m.1 == key)).map (fun m => m.2)
  | _ => none

/-- Whether a value is a string. -/
def Json.isStr : Json → Bool
  | .str _ => true
  | _ => false

/-- Whether a value has string-valued `platform`, `category`, `value` and
`expiry_date`. -/
def isCouponObject (j : Json) : Bool :=
  ["platform", "category", "value", "expiry_date"].all (fun k =>
    match j.get (utf16 k) with
    | some v => v.isStr
    | none => false)

/-- Whether a value is an object whose `coupons` is an array of coupon objects. -/
def isCouponsResult (j : Json) : Bool :=
  match j.get (utf16 "coupons") with
  | some (.arr items) => items.all isCouponObject
  | _ => false

/-! ## Locality of the JSON reader -/

/-- A reader of a piece of a number is local when its result depends on the text
after the piece only through the first character of that text. -/
def NumLocal (f : List Char → Option (List Char × List Char)) : Prop :=
  ∀ cs r, f cs = some r → cs = r.1 ++ r.2 ∧
    ∀ rest', rest'.head? = r.2.head? → f (r.1 ++ rest') = some (r.1, rest')

/-- Reading a value at fuel `f` is local: the value found depends on the text
read only, it is found again with any fuel of twice the length read, and an
object is read from an opening brace to a closing brace. -/
def ValueLocal (f : Nat) : Prop :=
  ∀ cs r, parseValue f cs = some r →
    ∃ consumed, cs = consumed ++ r.2 ∧ consumed ≠ [] ∧
      (∀ ms, r.1 = .obj ms → ∃ body, consumed = '\x7b' :: body ++ ['\x7d']) ∧
      ∀ f' rest', 2 * consumed.length ≤ f' + 1 →
        ((∀ numeral, r.1 ≠ .num numeral) ∨ rest'.head? = r.2.head?) →
        parseValue f' (consumed ++ rest') = some (r.1, rest')

/-- Reading array elements at fuel `f` is local. -/
def ElementsLocal (f : Nat) : Prop :=
  ∀ cs r, parseElements f cs = some r →
    ∃ consumed, cs = consumed ++ r.2 ∧ consumed ≠ [] ∧
      ∀ f' rest', 2 * consumed.length ≤ f' →
        parseElements f' (consumed ++ rest') = some (r.1, rest')

/-- Reading object members at fuel `f` is local, and ends at a closing brace. -/
def MembersLocal (f : Nat) : Prop :=
  ∀ cs r, parseMembers f cs = some r →
    ∃ consumed, cs = consumed ++ r.2 ∧ (∃ body, consumed = body ++ ['\x7d']) ∧
      ∀ f' rest', 2 * consumed.length ≤ f' →
        parseMembers f' (consumed ++ rest') = some (r.1, rest')

/-! ## Sample data -/

/-- A coupon of user `u2` with only the fields of interest set. -/
def sampleCoupon (id platform category : String) (value : ValueField)
    (expiry_date : ExpiryField) : Coupon :=
  ⟨id, some "u2", some platform, some category, value, expiry_date⟩

/-- An Amazon food coupon worth `10%` that expires on 2025-01-01. -/
def amazonFood : Coupon :=
  sampleCoupon "c1" "Amazon" "Food" (.text "10%") (.text "2025-01-01")

/-- A Flipkart shopping coupon that expires on 2025-02-01. -/
def flipkartShopping : Coupon :=
  sampleCoupon "c2" "Flipkart" "Shopping" (.text "50 rupees") (.text "2025-02-01")

/-- An Amazon coupon that expires on 2025-03-01. -/
def amazonMarch : Coupon :=
  sampleCoupon "c3" "Amazon" "Travel" (.text "5%") (.text "2025-03-01")

/-- An Amazon coupon that expires on 2025-01-15. -/
def amazonJanuary : Coupon :=
  sampleCoupon "c4" "Amazon" "Travel" (.text "5%") (.text "2025-01-15")

/-- An Amazon food coupon whose expiry date is the string `soon`. -/
def amazonSoon : Coupon :=
  sampleCoupon "c5" "Amazon" "Food" (.text "10%") (.text "soon")

/-- A Myntra coupon whose value is an object, `{ type: "Percent", amount: 10 }`,
and which has no expiry date. -/
def myntraPercent : Coupon :=
  sampleCoupon "c6" "Myntra" "Fashion" (.structured (some "Percent") (.number false 10))
    .missing

/-- A user who prefers the platform Amazon and no category. -/
def amazonFan : UserPrefs := ⟨some ["Amazon"], some []⟩

/-! ## Properties of the sort -/

theorem insertSorted_perm {α : Type} (le : α → α → Bool) (a : α) (l : List α) :
    (insertSorted le a l).Perm (a :: l) := by
  induction l with
  | nil => exact List.Perm.refl _
  | cons b l ih =>
    unfold insertSorted
    split
    · exact List.Perm.refl _
    · exact ((List.Perm.cons b ih).trans (List.Perm.swap a b l))

theorem arraySort_perm {α : Type} (cmp : α → α → Option Int) (l : List α) :
    (arraySort cmp l).Perm l := by
  induction l with
  | nil => exact List.Perm.refl _
  | cons a l ih =>
    exact (insertSorted_perm _ a _).trans (List.Perm.cons a ih)

theorem mem_arraySort {α : Type} (cmp : α → α → Option Int) (l : List α) (x : α) :
    x ∈ arraySort cmp l ↔ x ∈ l :=
  (arraySort_perm cmp l).mem_iff

/-- Inserting into a list ordered by `key`, with a comparison that agrees with
`key` on the elements involved, keeps the list ordered. -/
theorem insertSorted_pairwise {α : Type} (le : α → α → Bool) (key : α → Int) (a : α)
    (l : List α) (hle : ∀ b ∈ l, le a b = decide (key a ≤ key b))
    (hl : l.Pairwise (fun x y => key x ≤ key y)) :
    (insertSorted le a l).Pairwise (fun x y => key x ≤ key y) := by
  induction l with
  | nil => simp [insertSorted]
  | cons b l ih =>
    have hb := hle b (List.mem_cons_self b l)
    have hl' := List.pairwise_cons.mp hl
    unfold insertSorted
    split
    · rename_i h
      rw [hb] at h
      have hab : key a ≤ key b := of_decide_eq_true h
      refine List.pairwise_cons.mpr ⟨?_, hl⟩
      intro x hx
      rcases List.mem_cons.mp hx with rfl | hx
      · exact hab
      · exact le_trans hab (hl'.1 x hx)
    · rename_i h
      rw [hb] at h
      have hba : key b ≤ key a := by
        have : ¬ key a ≤ key b := by simpa using h
        omega
      refine List.pairwise_cons.mpr ⟨?_, ih (fun x hx => hle x (List.mem_cons_of_mem b hx)) hl'.2⟩
      intro x hx
      rcases List.mem_cons.mp ((insertSorted_perm le a l).mem_iff.mp hx) with rfl | hx
      · exact hba
      · exact hl'.1 x hx

/-- Insertion does not disturb the elements of any one key: the sort is stable. -/
theorem insertSorted_filter {α : Type} (le : α → α → Bool) (key : α → Int) (a : α)
    (l : List α) (hle : ∀ b ∈ l, le a b = decide (key a ≤ key b)) (k : Int) :
    (insertSorted le a l).filter (fun x => decide (key x = k)) =
      (a :: l).filter (fun x => decide (key x = k)) := by
  induction l with
  | nil => simp [insertSorted]
  | cons b l ih =>
    have hb := hle b (List.mem_cons_self b l)
    unfold insertSorted
    split
    · rfl
    · rename_i h
      rw [hb] at h
      have hlt : ¬ key a ≤ key b := by simpa using h
      have ih' := ih (fun x hx => hle x (List.mem_cons_of_mem b hx))
      rw [List.filter_cons, ih']
      by_cases hak : key a = k
      · have hbk : ¬ key b = k := by omega
        simp [List.filter_cons, hak, hbk]
      · simp [List.filter_cons, hak]

/-- A sort whose comparator agrees with a key on the elements of the list orders
the list by that key. -/
theorem arraySort_pairwise {α : Type} (cmp : α → α → Option Int) (key : α → Int)
    (l : List α)
    (hcmp : ∀ a ∈ l, ∀ b ∈ l, decide ((cmp a b).getD 0 ≤ 0) = decide (key a ≤ key b)) :
    (arraySort cmp l).Pairwise (fun x y => key x ≤ key y) := by
  induction l with
  | nil => exact List.Pairwise.nil
  | cons a l ih =>
    have ih' := ih (fun x hx y hy =>
      hcmp x (List.mem_cons_of_mem a hx) y (List.mem_cons_of_mem a hy))
    exact insertSorted_pairwise _ key a _
      (fun b hb => hcmp a (List.mem_cons_self a l) b
        (List.mem_cons_of_mem a ((mem_arraySort cmp l b).mp hb))) ih'

/-- A sort whose comparator agrees with a key on the elements of the list leaves
the elements of each key in their original order. -/
theorem arraySort_filter {α : Type} (cmp : α → α → Option Int) (key : α → Int)
    (l : List α)
    (hcmp : ∀ a ∈ l, ∀ b ∈ l, decide ((cmp a b).getD 0 ≤ 0) = decide (key a ≤ key b))
    (k : Int) :
    (arraySort cmp l).filter (fun x => decide (key x = k)) =
      l.filter (fun x => decide (key x = k)) := by
  induction l with
  | nil => rfl
  | cons a l ih =>
    have ih' := ih (fun x hx y hy =>
      hcmp x (List.mem_cons_of_mem a hx) y (List.mem_cons_of_mem a hy))
    have h := insertSorted_filter (fun a b => decide ((cmp a b).getD 0 ≤ 0)) key a
      (arraySort cmp l)
      (fun b hb => hcmp a (List.mem_cons_self a l) b
        (List.mem_cons_of_mem a ((mem_arraySort cmp l b).mp hb))) k
    show (insertSorted _ a (arraySort cmp l)).filter _ = _
    rw [h, List.filter_cons, List.filter_cons, ih']

/-! ## Properties of the match handler -/

theorem includes_iff (list : List String) (field : Option String) :
    includes list field = true ↔ ∃ s, field = some s ∧ s ∈ list := by
  cases field with
  | none => simp [includes]
  | some s => simp [includes]

theorem reduceMatches_map (platforms categories : List String) (l : List Coupon) :
    (reduceMatches platforms categories l).map (fun m => m.coupon) =
      l.filter (fun c => includes platforms c.platform || includes categories c.category) := by
  induction l with
  | nil => rfl
  | cons c l ih =>
    unfold reduceMatches
    cases hp : includes platforms c.platform <;> cases hc : includes categories c.category <;>
      simp [List.filter_cons, hp, hc, ih]

theorem reduceMatches_score (platforms categories : List String) (l : List Coupon)
    (m : MatchResult) (hm : m ∈ reduceMatches platforms categories l) :
    (includes platforms m.coupon.platform || includes categories m.coupon.category) = true ∧
      m.score = computeScore (includes platforms m.coupon.platform)
        (includes categories m.coupon.category) := by
  induction l with
  | nil => simp [reduceMatches] at hm
  | cons c l ih =>
    unfold reduceMatches at hm
    by_cases h : (!includes platforms c.platform && !includes categories c.category) = true
    · simp only [h, if_true] at hm
      exact ih hm
    · simp only [h, if_false] at hm
      rcases List.mem_cons.mp hm with rfl | hm
      · refine ⟨?_, rfl⟩
        revert h
        cases includes platforms c.platform <;> cases includes categories c.category <;> simp
      · exact ih hm

/-- The handler's answer when the user exists: the scored matches, sorted. -/
theorem matchesHandler_ok (js : JsEngine) (prefs : UserPrefs) (corpus : List Coupon)
    (uid : String) :
    matchesHandler js (some prefs) corpus uid =
      .ok (arraySort
        (fun a b => numSub (newDate js a.coupon.expiry_date) (newDate js b.coupon.expiry_date))
        (reduceMatches (prefs.prefered_platforms.getD []) (prefs.prefered_categories.getD [])
          (corpus.filter (fun coupon => decide (coupon.owner_uid ≠ some uid))))) := by
  unfold matchesHandler
  by_cases h : (prefs.prefered_platforms.getD []).length = 0 ∧
      (prefs.prefered_categories.getD []).length = 0
  · have hp : prefs.prefered_platforms.getD [] = [] := List.length_eq_zero.mp h.1
    have hc : prefs.prefered_categories.getD [] = [] := List.length_eq_zero.mp h.2
    have hnil : ∀ l : List Coupon, reduceMatches [] [] l = [] := by
      intro l
      induction l with
      | nil => rfl
      | cons c l ih =>
        unfold reduceMatches
        cases c.platform <;> cases c.category <;> simp [includes, ih]
    simp only [h, and_self, if_true, hp, hc, hnil]
    rfl
  · simp only [h, if_false]

theorem computeScore_tt : computeScore true true = 95 := by decide!

theorem computeScore_tf : computeScore true false = 80 := by decide!

theorem computeScore_ft : computeScore false true = 15 := by decide!

/-- C1. For every corpus, requesting uid and preference record, a coupon appears in
the list `GET /matches/:uid` returns exactly when it is in the corpus, its
`owner_uid` differs from the requesting uid, and its platform is one of
`prefered_platforms` or its category one of `prefered_categories`; no returned
coupon is owned by the requester. -/
theorem matches_membership (js : JsEngine) (prefs : UserPrefs) (corpus : List Coupon)
    (uid : String) :
    ∃ result, matchesHandler js (some prefs) corpus uid = .ok result ∧
      (∀ c, c ∈ result.map (fun m => m.coupon) ↔
        c ∈ corpus ∧ c.owner_uid ≠ some uid ∧
          ((∃ p, c.platform = some p ∧ p ∈ prefs.prefered_platforms.getD []) ∨
            ∃ g, c.category = some g ∧ g ∈ prefs.prefered_categories.getD [])) ∧
      ∀ m ∈ result, m.coupon.owner_uid ≠ some uid := by
  refine ⟨_, matchesHandler_ok js prefs corpus uid, ?_, ?_⟩
  · intro c
    rw [(List.Perm.map (fun m : MatchResult => m.coupon) (arraySort_perm _ _)).mem_iff,
      reduceMatches_map]
    simp only [List.mem_filter, Bool.or_eq_true, includes_iff, decide_eq_true_eq]
    exact and_assoc
  · intro m hm
    have hmem : m.coupon ∈ (reduceMatches (prefs.prefered_platforms.getD [])
        (prefs.prefered_categories.getD [])
        (corpus.filter (fun coupon => decide (coupon.owner_uid ≠ some uid)))).map
          (fun m => m.coupon) :=
      List.mem_map_of_mem _ ((mem_arraySort _ _ m).mp hm)
    rw [reduceMatches_map] at hmem
    simp only [List.mem_filter, decide_eq_true_eq] at hmem
    exact hmem.1.2

/-- C2. Every coupon `GET /matches/:uid` returns matches on platform or on category;
its score is 80 when only the platform matches, 15 when only the category matches
and 95 when both do, which is `100 * (0.8 * platformMatch + 0.15 * categoryMatch)`
rounded to the nearest integer with halves going up; so it lies in 1..100. -/
theorem matches_score (js : JsEngine) (prefs : UserPrefs) (corpus : List Coupon)
    (uid : String) (result : List MatchResult)
    (h : matchesHandler js (some prefs) corpus uid = .ok result)
    (m : MatchResult) (hm : m ∈ result) :
    let platformMatch := includes (prefs.prefered_platforms.getD []) m.coupon.platform
    let categoryMatch := includes (prefs.prefered_categories.getD []) m.coupon.category
    (platformMatch = true ∨ categoryMatch = true) ∧
      (platformMatch = true → categoryMatch = false → m.score = 80) ∧
      (platformMatch = false → categoryMatch = true → m.score = 15) ∧
      (platformMatch = true → categoryMatch = true → m.score = 95) ∧
      (m.score : Int) = ⌊(100 : ℚ) * (4 / 5 * (if platformMatch then 1 else 0) +
        3 / 20 * (if categoryMatch then 1 else 0)) + 1 / 2⌋ ∧
      0 < m.score ∧ m.score ≤ 100 := by
  intro platformMatch categoryMatch
  rw [matchesHandler_ok] at h
  injection h with h
  subst h
  have hs := reduceMatches_score _ _ _ m ((mem_arraySort _ _ m).mp hm)
  have hscore : m.score = computeScore platformMatch categoryMatch := hs.2
  have hany : (platformMatch || categoryMatch) = true := hs.1
  revert hscore hany
  cases platformMatch <;> cases categoryMatch <;> intro hscore hany
  · simp at hany
  · rw [computeScore_ft] at hscore
    refine ⟨Or.inr rfl, by simp, by simp [hscore], by simp, ?_, by omega, by omega⟩
    rw [hscore]
    symm
    rw [Int.floor_eq_iff]
    norm_num
  · rw [computeScore_tf] at hscore
    refine ⟨Or.inl rfl, by simp [hscore], by simp, by simp, ?_, by omega, by omega⟩
    rw [hscore]
    symm
    rw [Int.floor_eq_iff]
    norm_num
  · rw [computeScore_tt] at hscore
    refine ⟨Or.inl rfl, by simp, by simp, by simp [hscore], ?_, by omega, by omega⟩
    rw [hscore]
    symm
    rw [Int.floor_eq_iff]
    norm_num

/-- Witness for C2: the Amazon coupon of the specification's example is returned
with score 80. -/
theorem matches_score_witness :
    matchesHandler refEngine (some amazonFan) [amazonFood, flipkartShopping] "u1" =
        .ok [⟨amazonFood, 80⟩] ∧
      (⟨amazonFood, 80⟩ : MatchResult).score = 80 :=
  ⟨by decide!,
    (matches_score refEngine amazonFan [amazonFood, flipkartShopping] "u1" [⟨amazonFood, 80⟩]
      (by decide!) ⟨amazonFood, 80⟩ (List.mem_singleton.mpr rfl)).2.1 (by decide!) (by decide!)⟩

/-- C3, as stated, fails: with an unparseable expiry date between them, a coupon
that expires in March is returned before one that expires in January. -/
theorem matches_sorted_counterexample :
    matchesHandler refEngine (some amazonFan) [amazonMarch, amazonSoon, amazonJanuary] "u1" =
        .ok [⟨amazonMarch, 80⟩, ⟨amazonSoon, 80⟩, ⟨amazonJanuary, 80⟩] ∧
      newDate refEngine amazonMarch.expiry_date = some 1740787200000 ∧
      newDate refEngine amazonJanuary.expiry_date = some 1736899200000 ∧
      newDate refEngine amazonSoon.expiry_date = none ∧
      ¬ ((1740787200000 : Int) ≤ 1736899200000) := by
  decide!

/-- C3, amended. When the expiry date of every returned coupon parses, the list
`GET /matches/:uid` returns is in ascending order of parsed expiry date, and for
each date the returned coupons of that date are the matching coupons of that date
in corpus order. -/
theorem matches_sorted_stable (js : JsEngine) (prefs : UserPrefs) (corpus : List Coupon)
    (uid : String) (result : List MatchResult)
    (h : matchesHandler js (some prefs) corpus uid = .ok result)
    (hvalid : ∀ m ∈ result, newDate js m.coupon.expiry_date ≠ none) :
    result.Pairwise (fun a b => ∀ ta tb, newDate js a.coupon.expiry_date = some ta →
        newDate js b.coupon.expiry_date = some tb → ta ≤ tb) ∧
      ∀ t : Int,
        (result.filter (fun m => decide (newDate js m.coupon.expiry_date = some t))).map
            (fun m => m.coupon) =
          corpus.filter (fun c => decide (c.owner_uid ≠ some uid) &&
            (includes (prefs.prefered_platforms.getD []) c.platform ||
              includes (prefs.prefered_categories.getD []) c.category) &&
            decide (newDate js c.expiry_date = some t)) := by
  rw [matchesHandler_ok] at h
  injection h with h
  subst h
  set matchList := reduceMatches (prefs.prefered_platforms.getD [])
    (prefs.prefered_categories.getD [])
    (corpus.filter (fun coupon => decide (coupon.owner_uid ≠ some uid))) with hml
  have hv : ∀ m ∈ matchList, newDate js m.coupon.expiry_date ≠ none :=
    fun m hm => hvalid m ((mem_arraySort _ _ m).mpr hm)
  have hcmp : ∀ a ∈ matchList, ∀ b ∈ matchList,
      decide ((numSub (newDate js a.coupon.expiry_date)
        (newDate js b.coupon.expiry_date)).getD 0 ≤ 0) =
      decide ((newDate js a.coupon.expiry_date).getD 0 ≤
        (newDate js b.coupon.expiry_date).getD 0) := by
    intro a ha b hb
    have h1 := hv a ha
    have h2 := hv b hb
    cases ha' : newDate js a.coupon.expiry_date with
    | none => exact absurd ha' h1
    | some ta =>
      cases hb' : newDate js b.coupon.expiry_date with
      | none => exact absurd hb' h2
      | some tb =>
        simp only [numSub, Option.getD_some]
        exact decide_eq_decide.mpr (by omega)
  constructor
  · have hp := arraySort_pairwise _ (fun m => (newDate js m.coupon.expiry_date).getD 0)
      matchList hcmp
    refine hp.imp ?_
    intro a b hab ta tb hta htb
    simpa [hta, htb] using hab
  · intro t
    have hf := arraySort_filter _ (fun m => (newDate js m.coupon.expiry_date).getD 0)
      matchList hcmp t
    have hfilter : ∀ l : List MatchResult, (∀ m ∈ l, newDate js m.coupon.expiry_date ≠ none) →
        l.filter (fun m => decide (newDate js m.coupon.expiry_date = some t)) =
          l.filter (fun m => decide ((newDate js m.coupon.expiry_date).getD 0 = t)) := by
      intro l hl
      apply List.filter_congr
      intro m hm
      have := hl m hm
      cases hd : newDate js m.coupon.expiry_date with
      | none => exact absurd hd this
      | some tm => simp
    rw [hfilter _ hvalid, hf, ← hfilter _ hv]
    have hmap : ∀ l : List MatchResult,
        (l.filter (fun m => decide (newDate js m.coupon.expiry_date = some t))).map
            (fun m => m.coupon) =
          (l.map (fun m => m.coupon)).filter
            (fun c => decide (newDate js c.expiry_date = some t)) := by
      intro l
      rw [List.filter_map]
      rfl
    rw [hmap, hml, reduceMatches_map, List.filter_filter, List.filter_filter]
    apply List.filter_congr
    intro c _
    cases decide (c.owner_uid ≠ some uid) <;>
      cases (includes (prefs.prefered_platforms.getD []) c.platform ||
        includes (prefs.prefered_categories.getD []) c.category) <;>
      cases decide (newDate js c.expiry_date = some t) <;> rfl

/-- Witness for C3: two matching coupons that expire on 2025-03-01 and 2025-01-15
come back with the January coupon first. -/
theorem matches_sorted_stable_witness :
    matchesHandler refEngine (some amazonFan) [amazonMarch, amazonJanuary] "u1" =
        .ok [⟨amazonJanuary, 80⟩, ⟨amazonMarch, 80⟩] ∧
      List.Pairwise (fun a b => ∀ ta tb, newDate refEngine a.coupon.expiry_date = some ta →
        newDate refEngine b.coupon.expiry_date = some tb → ta ≤ tb)
        [(⟨amazonJanuary, 80⟩ : MatchResult), ⟨amazonMarch, 80⟩] :=
  ⟨by decide!,
    (matches_sorted_stable refEngine amazonFan [amazonMarch, amazonJanuary] "u1"
      [⟨amazonJanuary, 80⟩, ⟨amazonMarch, 80⟩] (by decide!) (by decide!)).1⟩

/-! ## Properties of the search handler -/

theorem occursIn_iff (kw f : List Char) : occursIn kw f = true ↔ kw <:+: f := by
  induction f with
  | nil =>
    simp only [occursIn, List.isPrefixOf_iff_prefix, List.prefix_nil, List.infix_nil]
  | cons c f ih =>
    simp only [occursIn, Bool.or_eq_true, List.isPrefixOf_iff_prefix, ih, List.infix_cons_iff]

theorem strIncludes_iff (f kw : String) : strIncludes f kw = true ↔ kw.toList <:+: f.toList :=
  occursIn_iff kw.toList f.toList

theorem keywordHit_iff (keywords fields : List String) :
    keywordHit keywords fields = true ↔
      ∃ kw ∈ keywords, ∃ f ∈ fields, kw.toList <:+: f.toList := by
  simp only [keywordHit, List.any_eq_true, strIncludes_iff]

theorem searchFields_eq_none (js : JsEngine) (coupon : Coupon) (d : Option DateObj) :
    searchFields js coupon d = none ↔ d = some .invalid := by
  unfold searchFields
  rcases d with _ | ⟨t⟩ | _ <;> simp

/-- The `filter` call throws as soon as one coupon has an invalid date. -/
theorem filterResults_eq_none (js : JsEngine) (keywords : List String)
    (l : List (Coupon × Option DateObj)) (h : ∃ e ∈ l, e.2 = some .invalid) :
    filterResults js keywords l = none := by
  induction l with
  | nil => simp at h
  | cons e l ih =>
    unfold filterResults
    cases hf : searchFields js e.1 e.2 with
    | none => rfl
    | some fields =>
      have hne : e.2 ≠ some .invalid := fun hh =>
        by rw [(searchFields_eq_none js e.1 e.2).mpr hh] at hf; exact Option.noConfusion hf
      obtain ⟨x, hx, hxi⟩ := h
      rcases List.mem_cons.mp hx with rfl | hx
      · exact absurd hxi hne
      · simp only [ih ⟨x, hx, hxi⟩]

/-- Without invalid dates the `filter` call keeps the entries some keyword hits. -/
theorem filterResults_eq_some (js : JsEngine) (keywords : List String)
    (l : List (Coupon × Option DateObj)) (h : ∀ e ∈ l, e.2 ≠ some .invalid) :
    filterResults js keywords l =
      some (l.filter (fun e =>
        match searchFields js e.1 e.2 with
        | some fields => keywordHit keywords fields
        | none => false)) := by
  induction l with
  | nil => rfl
  | cons e l ih =>
    have ih' := ih (fun x hx => h x (List.mem_cons_of_mem e hx))
    unfold filterResults
    cases hf : searchFields js e.1 e.2 with
    | none =>
      exact absurd ((searchFields_eq_none js e.1 e.2).mp hf) (h e (List.mem_cons_self e l))
    | some fields =>
      simp only [ih', List.filter_cons, hf]
      split <;> rfl

/-- The entries the handler filters: each coupon with its parsed date. -/
theorem filter_mapped (js : JsEngine) (keywords : List String) (corpus : List Coupon) :
    (corpus.map (fun data => (data, expiryDateOf js data.expiry_date))).filter (fun e =>
        match searchFields js e.1 e.2 with
        | some fields => keywordHit keywords fields
        | none => false) =
      (corpus.filter (matchesQuery js keywords)).map
        (fun data => (data, expiryDateOf js data.expiry_date)) := by
  induction corpus with
  | nil => rfl
  | cons c l ih =>
    simp only [List.map_cons, List.filter_cons, ih, matchesQuery]
    split <;> rfl

/-- The search handler on a non-empty query: it fails when some coupon has an
invalid date and otherwise returns the kept coupons, sorted when asked to. -/
theorem searchHandler_eq (js : JsEngine) (corpus : List Coupon) (q : String)
    (sort : Option String) (hq : q ≠ "") :
    ((∃ c ∈ corpus, expiryDateOf js c.expiry_date = some .invalid) ∧
        searchHandler js corpus (some q) sort = .error 500 "Search failed") ∨
      ((∀ c ∈ corpus, expiryDateOf js c.expiry_date ≠ some .invalid) ∧
        searchHandler js corpus (some q) sort = .ok
          ((if sort = some "asc" then
              arraySort (fun a b => numSub (dateToNumber a.2) (dateToNumber b.2))
                ((corpus.filter (matchesQuery js (splitWhitespace (js.toLowerCase q)))).map
                  (fun data => (data, expiryDateOf js data.expiry_date)))
            else if sort = some "desc" then
              arraySort (fun a b => numSub (dateToNumber b.2) (dateToNumber a.2))
                ((corpus.filter (matchesQuery js (splitWhitespace (js.toLowerCase q)))).map
                  (fun data => (data, expiryDateOf js data.expiry_date)))
            else (corpus.filter (matchesQuery js (splitWhitespace (js.toLowerCase q)))).map
              (fun data => (data, expiryDateOf js data.expiry_date))).map
            (fun entry => entry.1))) := by
  by_cases hbad : ∃ c ∈ corpus, expiryDateOf js c.expiry_date = some .invalid
  · left
    refine ⟨hbad, ?_⟩
    obtain ⟨c, hc, hci⟩ := hbad
    have hnone := filterResults_eq_none js (splitWhitespace (js.toLowerCase q))
      (corpus.map (fun data => (data, expiryDateOf js data.expiry_date)))
      ⟨(c, expiryDateOf js c.expiry_date), List.mem_map_of_mem _ hc, hci⟩
    simp only [searchHandler, hq, if_false, hnone]
  · right
    have hgood : ∀ c ∈ corpus, expiryDateOf js c.expiry_date ≠ some .invalid :=
      fun c hc hci => hbad ⟨c, hc, hci⟩
    refine ⟨hgood, ?_⟩
    have hsome := filterResults_eq_some js (splitWhitespace (js.toLowerCase q))
      (corpus.map (fun data => (data, expiryDateOf js data.expiry_date)))
      (by
        intro e he
        obtain ⟨c, hc, rfl⟩ := List.mem_map.mp he
        exact hgood c hc)
    rw [filter_mapped] at hsome
    simp only [searchHandler, hq, if_false, hsome]

/-- Sorting and stripping the helper field keeps exactly the kept coupons. -/
theorem mem_sorted_entries (js : JsEngine) (cmp : Coupon × Option DateObj →
    Coupon × Option DateObj → Option Int) (l : List Coupon) (c : Coupon) :
    c ∈ (arraySort cmp (l.map (fun data => (data, expiryDateOf js data.expiry_date)))).map
      (fun entry => entry.1) ↔ c ∈ l := by
  rw [(List.Perm.map (fun entry : Coupon × Option DateObj => entry.1)
    (arraySort_perm cmp _)).mem_iff, List.map_map]
  simp

/-- The coupons a successful search returns are, up to order, the kept ones. -/
theorem search_result_mem (js : JsEngine) (corpus : List Coupon) (q : String)
    (sort : Option String) (result : List Coupon)
    (h : searchHandler js corpus (some q) sort = .ok result) (c : Coupon) :
    (∀ x ∈ corpus, expiryDateOf js x.expiry_date ≠ some .invalid) ∧
      (c ∈ result ↔
        c ∈ corpus.filter (matchesQuery js (splitWhitespace (js.toLowerCase q)))) := by
  have hq : q ≠ "" := by
    intro hq
    simp [searchHandler, hq] at h
  rcases searchHandler_eq js corpus q sort hq with ⟨_, he⟩ | ⟨hgood, he⟩
  · rw [he] at h
    exact Response.noConfusion h
  · refine ⟨hgood, ?_⟩
    rw [he] at h
    injection h with h
    subst h
    by_cases h1 : sort = some "asc"
    · simp only [h1, if_true]
      exact mem_sorted_entries js _ _ c
    · by_cases h2 : sort = some "desc"
      · simp only [h1, h2, if_true, if_false]
        exact mem_sorted_entries js _ _ c
      · simp only [h1, h2, if_false, List.map_map]
        simp

/-- The keywords that hit a coupon with a usable date, field by field. -/
theorem matchesQuery_iff (js : JsEngine) (keywords : List String) (c : Coupon)
    (hc : expiryDateOf js c.expiry_date ≠ some .invalid) :
    matchesQuery js keywords c = true ↔
      ∃ kw ∈ keywords,
        kw.toList <:+: (js.toLowerCase (c.platform.getD "")).toList ∨
        kw.toList <:+: (js.toLowerCase (c.category.getD "")).toList ∨
        (∃ type amount, c.value = .structured type amount ∧
          (kw.toList <:+: (js.toLowerCase (type.getD "")).toList ∨
            kw.toList <:+: (amountString amount).toList)) ∨
        ∃ t, expiryDateOf js c.expiry_date = some (.valid t) ∧
          kw.toList <:+: (js.toLowerCase (js.toISOString t)).toList := by
  have hnil : ∀ kw : String, kw.toList <:+: ("" : String).toList →
      kw.toList <:+: (js.toLowerCase (c.platform.getD "")).toList := by
    intro kw hkw
    have : kw.toList = [] := List.infix_nil.mp hkw
    rw [this]
    exact List.nil_infix
  unfold matchesQuery searchFields
  constructor
  · intro h
    cases hd : expiryDateOf js c.expiry_date with
    | none =>
      rw [hd] at h
      obtain ⟨kw, hkw, f, hf, hsub⟩ := (keywordHit_iff _ _).mp h
      refine ⟨kw, hkw, ?_⟩
      simp only [List.cons_append, List.nil_append, List.mem_cons, List.mem_singleton,
        List.not_mem_nil, or_false] at hf
      rcases hf with rfl | rfl | rfl | rfl | rfl
      · exact Or.inl hsub
      · exact Or.inr (Or.inl hsub)
      · cases hv : c.value with
        | missing =>
          rw [hv] at hsub
          simp only [valueType, Option.getD_none, js.toLowerCase_empty] at hsub
          exact Or.inl (hnil kw hsub)
        | text s =>
          rw [hv] at hsub
          simp only [valueType, Option.getD_none, js.toLowerCase_empty] at hsub
          exact Or.inl (hnil kw hsub)
        | structured type amount =>
          rw [hv] at hsub
          exact Or.inr (Or.inr (Or.inl ⟨type, amount, rfl, Or.inl hsub⟩))
      · cases hv : c.value with
        | missing =>
          rw [hv] at hsub
          exact Or.inl (hnil kw hsub)
        | text s =>
          rw [hv] at hsub
          exact Or.inl (hnil kw hsub)
        | structured type amount =>
          rw [hv] at hsub
          exact Or.inr (Or.inr (Or.inl ⟨type, amount, rfl, Or.inr hsub⟩))
      · exact Or.inl (hnil kw hsub)
    | some d =>
      cases d with
      | invalid => exact absurd hd hc
      | valid t =>
        rw [hd] at h
        obtain ⟨kw, hkw, f, hf, hsub⟩ := (keywordHit_iff _ _).mp h
        refine ⟨kw, hkw, ?_⟩
        simp only [List.cons_append, List.nil_append, List.mem_cons, List.mem_singleton,
          List.not_mem_nil, or_false] at hf
        rcases hf with rfl | rfl | rfl | rfl | rfl
        · exact Or.inl hsub
        · exact Or.inr (Or.inl hsub)
        · cases hv : c.value with
          | missing =>
            rw [hv] at hsub
            simp only [valueType, Option.getD_none, js.toLowerCase_empty] at hsub
            exact Or.inl (hnil kw hsub)
          | text s =>
            rw [hv] at hsub
            simp only [valueType, Option.getD_none, js.toLowerCase_empty] at hsub
            exact Or.inl (hnil kw hsub)
          | structured type amount =>
            rw [hv] at hsub
            exact Or.inr (Or.inr (Or.inl ⟨type, amount, rfl, Or.inl hsub⟩))
        · cases hv : c.value with
          | missing =>
            rw [hv] at hsub
            exact Or.inl (hnil kw hsub)
          | text s =>
            rw [hv] at hsub
            exact Or.inl (hnil kw hsub)
          | structured type amount =>
            rw [hv] at hsub
            exact Or.inr (Or.inr (Or.inl ⟨type, amount, rfl, Or.inr hsub⟩))
        · exact Or.inr (Or.inr (Or.inr ⟨t, rfl, hsub⟩))
  · rintro ⟨kw, hkw, hsub⟩
    have hhead : ∀ tail : List String,
        (kw.toList <:+: (js.toLowerCase (c.platform.getD "")).toList ∨
          kw.toList <:+: (js.toLowerCase (c.category.getD "")).toList ∨
          ∃ type amount, c.value = .structured type amount ∧
            (kw.toList <:+: (js.toLowerCase (type.getD "")).toList ∨
              kw.toList <:+: (amountString amount).toList)) →
        keywordHit keywords ([js.toLowerCase (c.platform.getD ""),
          js.toLowerCase (c.category.getD ""),
          js.toLowerCase ((valueType c.value).getD ""),
          amountString (valueAmount c.value)] ++ tail) = true := by
      intro tail hh
      refine (keywordHit_iff _ _).mpr ⟨kw, hkw, ?_⟩
      rcases hh with hp | hg | ⟨type, amount, hv, ht | ha⟩
      · exact ⟨_, by simp, hp⟩
      · exact ⟨_, by simp, hg⟩
      · refine ⟨js.toLowerCase ((valueType c.value).getD ""), by simp, ?_⟩
        rw [hv]
        exact ht
      · refine ⟨amountString (valueAmount c.value), by simp, ?_⟩
        rw [hv]
        exact ha
    rcases hsub with hp | hg | hv | ⟨t, ht, hsub⟩
    · cases hd : expiryDateOf js c.expiry_date with
      | none => exact hhead _ (Or.inl hp)
      | some d =>
        cases d with
        | invalid => exact absurd hd hc
        | valid t => exact hhead _ (Or.inl hp)
    · cases hd : expiryDateOf js c.expiry_date with
      | none => exact hhead _ (Or.inr (Or.inl hg))
      | some d =>
        cases d with
        | invalid => exact absurd hd hc
        | valid t => exact hhead _ (Or.inr (Or.inl hg))
    · cases hd : expiryDateOf js c.expiry_date with
      | none => exact hhead _ (Or.inr (Or.inr hv))
      | some d =>
        cases d with
        | invalid => exact absurd hd hc
        | valid t => exact hhead _ (Or.inr (Or.inr hv))
    · rw [ht]
      exact (keywordHit_iff _ _).mpr ⟨kw, hkw, _, by simp, hsub⟩

theorem insertSorted_map {α β : Type} (f : α → β) (le : β → β → Bool) (a : α) (l : List α) :
    insertSorted le (f a) (l.map f) =
      (insertSorted (fun x y => le (f x) (f y)) a l).map f := by
  induction l with
  | nil => rfl
  | cons b l ih =>
    simp only [List.map_cons, insertSorted]
    split
    · rfl
    · rw [List.map_cons, ih]

/-- Sorting the images of a list is sorting the list by the comparator pulled
back along the map. -/
theorem arraySort_map {α β : Type} (f : α → β) (cmp : β → β → Option Int) (l : List α) :
    arraySort cmp (l.map f) = (arraySort (fun a b => cmp (f a) (f b)) l).map f := by
  induction l with
  | nil => rfl
  | cons a l ih =>
    show insertSorted _ (f a) (arraySort cmp (l.map f)) = _
    rw [ih, insertSorted_map]
    rfl

/-- The successful search, without the helper field: the kept coupons, sorted by
their expiry times when a sort is asked for. -/
theorem searchHandler_ok (js : JsEngine) (corpus : List Coupon) (q : String)
    (sort : Option String) (hq : q ≠ "")
    (hdates : ∀ c ∈ corpus, expiryDateOf js c.expiry_date ≠ some .invalid) :
    searchHandler js corpus (some q) sort = .ok
      (if sort = some "asc" then
        arraySort (fun a b => numSub (dateToNumber (expiryDateOf js a.expiry_date))
            (dateToNumber (expiryDateOf js b.expiry_date)))
          (corpus.filter (matchesQuery js (splitWhitespace (js.toLowerCase q))))
      else if sort = some "desc" then
        arraySort (fun a b => numSub (dateToNumber (expiryDateOf js b.expiry_date))
            (dateToNumber (expiryDateOf js a.expiry_date)))
          (corpus.filter (matchesQuery js (splitWhitespace (js.toLowerCase q))))
      else corpus.filter (matchesQuery js (splitWhitespace (js.toLowerCase q)))) := by
  have hid : ∀ l : List Coupon,
      (l.map (fun data => (data, expiryDateOf js data.expiry_date))).map
        (fun entry => entry.1) = l := by
    intro l
    rw [List.map_map]
    exact List.map_id _
  rcases searchHandler_eq js corpus q sort hq with ⟨⟨c, hc, hci⟩, _⟩ | ⟨_, he⟩
  · exact absurd hci (hdates c hc)
  · rw [he]
    congr 1
    by_cases h1 : sort = some "asc"
    · simp only [h1, if_true]
      rw [arraySort_map, hid]
    · by_cases h2 : sort = some "desc"
      · rw [if_neg h1, if_pos h2, if_neg h1, if_pos h2, arraySort_map, hid]
      · rw [if_neg h1, if_neg h2, if_neg h1, if_neg h2]
        exact hid _

/-- The comparator of the sort agrees with the order of the expiry times on
coupons whose dates are usable. -/
theorem expiryTime_cmp (js : JsEngine) (a b : Coupon)
    (ha : expiryDateOf js a.expiry_date ≠ some .invalid)
    (hb : expiryDateOf js b.expiry_date ≠ some .invalid) :
    decide ((numSub (dateToNumber (expiryDateOf js a.expiry_date))
        (dateToNumber (expiryDateOf js b.expiry_date))).getD 0 ≤ 0) =
      decide (expiryTime js a ≤ expiryTime js b) := by
  have hnum : ∀ d : Option DateObj, d ≠ some .invalid → ∃ n, dateToNumber d = some n := by
    intro d hd
    rcases d with _ | ⟨t⟩ | _
    · exact ⟨0, rfl⟩
    · exact ⟨t, rfl⟩
    · exact absurd rfl hd
  obtain ⟨x, hx⟩ := hnum _ ha
  obtain ⟨y, hy⟩ := hnum _ hb
  simp only [expiryTime, hx, hy, numSub, Option.getD_some]
  exact decide_eq_decide.mpr (by omega)

/-- C4, as stated, fails in two ways: the token `10%` occurs in the string value
`10%` of the coupon, yet the search does not return it; and the query `zzz `, whose
only token `zzz` occurs in no field of any coupon, returns every coupon. -/
theorem search_string_value_counterexample :
    (amazonFood.value = .text "10%" ∧
      "10%" ∈ splitWhitespace (refEngine.toLowerCase "10%") ∧
      ("10%" : String).toList <:+: ("10%" : String).toList ∧
      searchHandler refEngine [amazonFood] (some "10%") none = .ok []) ∧
    (splitWhitespace (refEngine.toLowerCase "zzz ") = ["zzz", ""] ∧
      matchesQuery refEngine ["zzz"] amazonFood = false ∧
      matchesQuery refEngine ["zzz"] flipkartShopping = false ∧
      searchHandler refEngine [amazonFood, flipkartShopping] (some "zzz ") none =
        .ok [amazonFood, flipkartShopping]) :=
  ⟨⟨rfl, by decide!, List.infix_refl _, by decide!⟩, by decide!, by decide!, by decide!,
    by decide!⟩

/-- C4, amended. When every expiry date that is present parses and the lowercased
query splits at runs of white space into non-empty tokens only, the search succeeds
and a coupon is in the result exactly when it is in the corpus and some token
occurs in its lowercased platform, in its lowercased category, in the lowercased
`type` or in `String(amount || "")` of a value that is an object, or in the
lowercased ISO form of its expiry date. -/
theorem search_membership (js : JsEngine) (corpus : List Coupon) (q : String)
    (sort : Option String)
    (htokens : "" ∉ splitWhitespace (js.toLowerCase q))
    (hdates : ∀ c ∈ corpus, expiryDateOf js c.expiry_date ≠ some .invalid) :
    ∃ result, searchHandler js corpus (some q) sort = .ok result ∧
      ∀ c, c ∈ result ↔ c ∈ corpus ∧ ∃ kw ∈ splitWhitespace (js.toLowerCase q), kw ≠ "" ∧
        (kw.toList <:+: (js.toLowerCase (c.platform.getD "")).toList ∨
        kw.toList <:+: (js.toLowerCase (c.category.getD "")).toList ∨
        (∃ type amount, c.value = .structured type amount ∧
          (kw.toList <:+: (js.toLowerCase (type.getD "")).toList ∨
            kw.toList <:+: (amountString amount).toList)) ∨
        ∃ t, expiryDateOf js c.expiry_date = some (.valid t) ∧
          kw.toList <:+: (js.toLowerCase (js.toISOString t)).toList) := by
  have hq : q ≠ "" := by
    intro hq
    apply htokens
    rw [hq, js.toLowerCase_empty]
    decide
  refine ⟨_, searchHandler_ok js corpus q sort hq hdates, ?_⟩
  intro c
  obtain ⟨_, hmem⟩ := search_result_mem js corpus q sort _
    (searchHandler_ok js corpus q sort hq hdates) c
  rw [hmem, List.mem_filter]
  constructor
  · rintro ⟨hc, hm⟩
    obtain ⟨kw, hkw, hsub⟩ := (matchesQuery_iff js _ c (hdates c hc)).mp hm
    exact ⟨hc, kw, hkw, fun h => htokens (h ▸ hkw), hsub⟩
  · rintro ⟨hc, kw, hkw, _, hsub⟩
    exact ⟨hc, (matchesQuery_iff js _ c (hdates c hc)).mpr ⟨kw, hkw, hsub⟩⟩

/-- Witness for C4: the query `food 10` finds the food coupon through its category
and the Myntra coupon through the amount of its value, and not the shopping
coupon. -/
theorem search_membership_witness :
    "" ∉ splitWhitespace (refEngine.toLowerCase "food 10") ∧
      searchHandler refEngine [amazonFood, flipkartShopping, myntraPercent] (some "food 10")
        none = .ok [amazonFood, myntraPercent] ∧
      ∃ result, searchHandler refEngine [amazonFood, flipkartShopping, myntraPercent]
          (some "food 10") none = .ok result ∧
        ∀ c, c ∈ result ↔ c ∈ [amazonFood, flipkartShopping, myntraPercent] ∧
          ∃ kw ∈ splitWhitespace (refEngine.toLowerCase "food 10"), kw ≠ "" ∧
            (kw.toList <:+: (refEngine.toLowerCase (c.platform.getD "")).toList ∨
            kw.toList <:+: (refEngine.toLowerCase (c.category.getD "")).toList ∨
            (∃ type amount, c.value = .structured type amount ∧
              (kw.toList <:+: (refEngine.toLowerCase (type.getD "")).toList ∨
                kw.toList <:+: (amountString amount).toList)) ∨
            ∃ t, expiryDateOf refEngine c.expiry_date = some (.valid t) ∧
              kw.toList <:+: (refEngine.toLowerCase (refEngine.toISOString t)).toList) :=
  ⟨by decide!, by decide!,
    search_membership refEngine [amazonFood, flipkartShopping, myntraPercent] "food 10" none
      (by decide!) (by decide!)⟩

/-- C5, as stated, fails: a query of one space is not rejected; the search
succeeds and returns every coupon. -/
theorem search_whitespace_query_counterexample :
    (" " : String).toList.all isJsWhitespace = true ∧
      searchHandler refEngine [amazonFood, flipkartShopping] (some " ") none =
        .ok [amazonFood, flipkartShopping] := by
  decide!

/-- C5, amended. For an absent or empty query string the search handler fails
with status 400 and the message `Missing query string (q)`, whatever the corpus,
and returns no coupons. -/
theorem search_missing_query (js : JsEngine) (corpus : List Coupon) (sort : Option String) :
    searchHandler js corpus none sort = .error 400 "Missing query string (q)" ∧
      searchHandler js corpus (some "") sort = .error 400 "Missing query string (q)" := by
  constructor
  · rfl
  · simp [searchHandler]

/-- C7, as stated, fails: with `sort` equal to `asc` and a corpus that holds a
coupon whose expiry date does not parse, the matching coupons are not returned in
any order; the search fails with status 500. -/
theorem search_order_counterexample :
    matchesQuery refEngine (splitWhitespace (refEngine.toLowerCase "amazon")) amazonMarch =
        true ∧
      matchesQuery refEngine (splitWhitespace (refEngine.toLowerCase "amazon"))
        amazonJanuary = true ∧
      searchHandler refEngine [amazonMarch, amazonSoon, amazonJanuary] (some "amazon")
        (some "asc") = .error 500 "Search failed" := by
  decide!

/-- C7, amended. For a non-empty query and a corpus in which every expiry date that
is present parses, the search succeeds and returns exactly the coupons the match
test keeps. With `sort` equal to `asc` they come in ascending order of expiry
time, with `desc` in descending order, a coupon without expiry date counting as
time 0 and coupons of equal time keeping their corpus order; with any other or no
`sort` the result is the corpus filtered by the match test, the order unchanged. -/
theorem search_order (js : JsEngine) (corpus : List Coupon) (q : String)
    (sort : Option String) (hq : q ≠ "")
    (hdates : ∀ c ∈ corpus, expiryDateOf js c.expiry_date ≠ some .invalid) :
    ∃ result, searchHandler js corpus (some q) sort = .ok result ∧
      result.Perm (corpus.filter (matchesQuery js (splitWhitespace (js.toLowerCase q)))) ∧
      (sort = some "asc" →
        result.Pairwise (fun a b => expiryTime js a ≤ expiryTime js b)) ∧
      (sort = some "desc" →
        result.Pairwise (fun a b => expiryTime js b ≤ expiryTime js a)) ∧
      (∀ t : Int, result.filter (fun c => decide (expiryTime js c = t)) =
        (corpus.filter (matchesQuery js (splitWhitespace (js.toLowerCase q)))).filter
          (fun c => decide (expiryTime js c = t))) ∧
      (sort ≠ some "asc" → sort ≠ some "desc" →
        result = corpus.filter (matchesQuery js (splitWhitespace (js.toLowerCase q)))) := by
  refine ⟨_, searchHandler_ok js corpus q sort hq hdates, ?_⟩
  set kept := corpus.filter (matchesQuery js (splitWhitespace (js.toLowerCase q))) with hkept
  have hk : ∀ c ∈ kept, expiryDateOf js c.expiry_date ≠ some .invalid :=
    fun c hc => hdates c (List.mem_filter.mp hc).1
  have hasc : ∀ a ∈ kept, ∀ b ∈ kept,
      decide ((numSub (dateToNumber (expiryDateOf js a.expiry_date))
        (dateToNumber (expiryDateOf js b.expiry_date))).getD 0 ≤ 0) =
      decide (expiryTime js a ≤ expiryTime js b) :=
    fun a ha b hb => expiryTime_cmp js a b (hk a ha) (hk b hb)
  have hdesc : ∀ a ∈ kept, ∀ b ∈ kept,
      decide ((numSub (dateToNumber (expiryDateOf js b.expiry_date))
        (dateToNumber (expiryDateOf js a.expiry_date))).getD 0 ≤ 0) =
      decide (-expiryTime js a ≤ -expiryTime js b) := by
    intro a ha b hb
    rw [expiryTime_cmp js b a (hk b hb) (hk a ha)]
    exact decide_eq_decide.mpr (by omega)
  by_cases h1 : sort = some "asc"
  · rw [if_pos h1]
    refine ⟨arraySort_perm _ _, fun _ => arraySort_pairwise _ (expiryTime js) kept hasc, ?_,
      fun t => arraySort_filter _ (expiryTime js) kept hasc t, fun h => absurd h1 h⟩
    intro h2
    rw [h1] at h2
    exact absurd h2 (by decide)
  · rw [if_neg h1]
    by_cases h2 : sort = some "desc"
    · rw [if_pos h2]
      refine ⟨arraySort_perm _ _, fun h => absurd h h1, fun _ => ?_, fun t => ?_,
        fun _ h => absurd h2 h⟩
      · have hp := arraySort_pairwise _ (fun c => -expiryTime js c) kept hdesc
        refine hp.imp ?_
        intro a b hab
        have hab' : -expiryTime js a ≤ -expiryTime js b := hab
        omega
      · have hf := arraySort_filter _ (fun c => -expiryTime js c) kept hdesc (-t)
        have hcongr : ∀ l : List Coupon,
            l.filter (fun c => decide (-expiryTime js c = -t)) =
              l.filter (fun c => decide (expiryTime js c = t)) := by
          intro l
          apply List.filter_congr
          intro c _
          exact decide_eq_decide.mpr (by omega)
        rw [hcongr, hcongr] at hf
        exact hf
    · rw [if_neg h2]
      exact ⟨List.Perm.refl _, fun h => absurd h h1, fun h => absurd h h2, fun _ => rfl,
        fun _ _ => rfl⟩

/-- Witness for C7: sorted ascending, the coupon without expiry date comes first,
then the January coupon, then the March one; the shopping coupon does not match. -/
theorem search_order_witness :
    searchHandler refEngine [amazonMarch, flipkartShopping, amazonJanuary, myntraPercent]
        (some "amazon myntra") (some "asc") = .ok [myntraPercent, amazonJanuary, amazonMarch] ∧
      ∃ result, searchHandler refEngine
          [amazonMarch, flipkartShopping, amazonJanuary, myntraPercent]
          (some "amazon myntra") (some "asc") = .ok result ∧
        result.Perm (List.filter
          (matchesQuery refEngine (splitWhitespace (refEngine.toLowerCase "amazon myntra")))
          [amazonMarch, flipkartShopping, amazonJanuary, myntraPercent]) ∧
        result.Pairwise (fun a b => expiryTime refEngine a ≤ expiryTime refEngine b) :=
  ⟨by decide!,
    (search_order refEngine [amazonMarch, flipkartShopping, amazonJanuary, myntraPercent]
      "amazon myntra" (some "asc") (by decide) (by decide!)).imp
      (fun _ h => ⟨h.1, h.2.1, h.2.2.1 rfl⟩)⟩

/-- C8 fails on the code: as soon as the corpus holds a coupon whose expiry date
is a string that does not parse, every search with a non-empty query fails with
status 500, whatever the coupon's platform and category. -/
theorem search_fails_on_unparseable_expiry (js : JsEngine) (corpus : List Coupon) (q : String)
    (sort : Option String) (c : Coupon) (s : String) (hq : q ≠ "") (hc : c ∈ corpus)
    (hs : c.expiry_date = .text s) (hparse : js.dateParse s = none) :
    searchHandler js corpus (some q) sort = .error 500 "Search failed" := by
  have hinv : expiryDateOf js c.expiry_date = some .invalid := by
    rw [hs]
    simp [expiryDateOf, hparse]
  rcases searchHandler_eq js corpus q sort hq with ⟨_, he⟩ | ⟨hgood, _⟩
  · exact he
  · exact absurd hinv (hgood c hc)

/-- The failing input of C8: a food coupon that expires `soon` makes the search for
`food` fail, although the token occurs in its lowercased category. -/
theorem search_fails_on_soon :
    ("food" : String).toList <:+: (refEngine.toLowerCase (amazonSoon.category.getD "")).toList ∧
      searchHandler refEngine [amazonFood, amazonSoon] (some "food") none =
        .error 500 "Search failed" :=
  ⟨by decide!,
    search_fails_on_unparseable_expiry refEngine [amazonFood, amazonSoon] "food" none amazonSoon
      "soon" (by decide) (by decide!) rfl (by decide!)⟩

/-- A text that is not empty and neither starts nor ends with white space splits
into non-empty tokens only. -/
theorem splitScan_tokens_nonempty :
    ∀ (cs cur : List Char) (inSep : Bool), (cs = [] → cur ≠ []) →
      (∀ c, cs.getLast? = some c → isJsWhitespace c = false) →
      (∀ c, cs.head? = some c → isJsWhitespace c = true → inSep = false → cur ≠ []) →
      "" ∉ splitScan cs cur inSep := by
  intro cs
  induction cs with
  | nil =>
    intro cur inSep h1 _ _ hmem
    simp only [splitScan, List.mem_singleton] at hmem
    have : cur.reverse = [] := by
      have := congrArg String.toList hmem
      simpa using this.symm
    exact h1 rfl (List.reverse_eq_nil_iff.mp this)
  | cons c rest ih =>
    intro cur inSep _ h2 h3 hmem
    have hrest : isJsWhitespace c = true → rest ≠ [] := by
      intro hc hnil
      rw [hnil] at h2
      have := h2 c rfl
      rw [hc] at this
      exact Bool.noConfusion this
    have hlast : ∀ x, rest.getLast? = some x → isJsWhitespace x = false := by
      intro x hx
      apply h2 x
      cases rest with
      | nil => simp at hx
      | cons d rest' => rw [List.getLast?_cons_cons]; exact hx
    unfold splitScan at hmem
    by_cases hc : isJsWhitespace c = true
    · simp only [hc, if_true] at hmem
      cases inSep with
      | true =>
        simp only [if_true] at hmem
        exact ih cur true (fun h => absurd h (hrest hc)) hlast
          (fun _ _ _ h => Bool.noConfusion h) hmem
      | false =>
        simp only [Bool.false_eq_true, if_false, List.mem_cons] at hmem
        rcases hmem with hhead | htail
        · have : cur.reverse = [] := by
            have := congrArg String.toList hhead
            simpa using this.symm
          exact h3 c rfl hc rfl (List.reverse_eq_nil_iff.mp this)
        · exact ih [] true (fun h => absurd h (hrest hc)) hlast
            (fun _ _ _ h => Bool.noConfusion h) htail
    · simp only [hc, if_false] at hmem
      exact ih (c :: cur) false (fun _ => List.cons_ne_nil _ _) hlast
        (fun _ _ _ _ => List.cons_ne_nil _ _) hmem

theorem splitWhitespace_tokens_nonempty (s : String) (hne : s.toList ≠ [])
    (hhead : ∀ c, s.toList.head? = some c → isJsWhitespace c = false)
    (hlast : ∀ c, s.toList.getLast? = some c → isJsWhitespace c = false) :
    "" ∉ splitWhitespace s := by
  apply splitScan_tokens_nonempty s.toList [] false (fun h => absurd h hne) hlast
  intro c hc hws _
  rw [hhead c hc] at hws
  exact Bool.noConfusion hws

/-! ## Properties of the instruction text -/

theorem splitAtFirst_template :
    splitAtFirst "source_document".toList PROMPT_TEMPLATE.toList = some promptParts := by
  decide!

theorem getSubstitution_of_no_dollar (matched before after : List Char) :
    ∀ (n : Nat) (r : List Char), r.length ≤ n → '$' ∉ r →
      getSubstitution matched before after r = r := by
  intro n
  induction n with
  | zero =>
    intro r hr _
    have : r = [] := List.length_eq_zero.mp (Nat.le_zero.mp hr)
    subst this
    rfl
  | succ n ih =>
    intro r hr hd
    match r, hr, hd with
    | [], _, _ => rfl
    | [c], _, _ => rfl
    | c :: d :: rest, hr, hd =>
      have hc : c ≠ '$' := fun h => hd (by simp [h])
      have hrest : '$' ∉ d :: rest := fun h => hd (List.mem_cons_of_mem c h)
      have hlen : (d :: rest).length ≤ n := by
        simp only [List.length_cons] at hr ⊢
        omega
      unfold getSubstitution
      rw [if_neg hc, ih (d :: rest) hlen hrest]

/-- The instruction text is the template with its first `source_document`
replaced by the expansion of the quoted file name. -/
theorem instructionText_eq (originalName : String) :
    instructionText originalName =
      String.mk (promptParts.1 ++
        getSubstitution "source_document".toList promptParts.1 promptParts.2
          ("\"" ++ originalName ++ "\"").toList ++ promptParts.2) := by
  unfold instructionText stringReplace
  rw [splitAtFirst_template]

/-- An occurrence of a text that lacks a character lies on one side of that
character. -/
theorem infix_of_infix_append_cons (p x y : List Char) (q : Char) (hq : q ∉ p)
    (h : p <:+: x ++ q :: y) : p <:+: x ∨ p <:+: y := by
  obtain ⟨s, t, hst⟩ := h
  rw [List.append_assoc] at hst
  rcases List.append_eq_append_iff.mp hst with ⟨a, hx, hpa⟩ | ⟨c, hs, hqy⟩
  · -- the occurrence starts inside `x`
    rcases List.append_eq_append_iff.mp hpa with ⟨b, ha, _⟩ | ⟨d, hp, hd⟩
    · left
      exact ⟨s, b, by rw [hx, ha, List.append_assoc]⟩
    · cases d with
      | nil =>
        left
        rw [List.append_nil] at hp
        exact ⟨s, [], by rw [List.append_nil, hx, hp]⟩
      | cons e d =>
        exfalso
        have he : q = e := by
          have := congrArg List.head? hd
          simpa using this
        apply hq
        rw [hp, he]
        simp
  · -- the occurrence starts at or after `q`
    cases c with
    | nil =>
      cases p with
      | nil => exact Or.inl List.nil_infix
      | cons e p =>
        exfalso
        have he : q = e := by
          have := congrArg List.head? hqy
          simpa using this
        apply hq
        rw [he]
        simp
    | cons e c =>
      right
      have hy : y = c ++ (p ++ t) := by
        have := congrArg List.tail hqy
        simpa using this
      exact ⟨c, t, by rw [hy, List.append_assoc]⟩

/-- For a file name without a dollar sign the instruction text is the template
with the quoted file name in the place of its `source_document`. -/
theorem instructionText_of_no_dollar (originalName : String)
    (hdollar : '$' ∉ originalName.toList) :
    (instructionText originalName).toList =
      promptParts.1 ++ '"' :: (originalName.toList ++ '"' :: promptParts.2) := by
  have hq : '$' ∉ ("\"" ++ originalName ++ "\"").toList := by
    simp only [String.toList, String.data_append, List.mem_append]
    rintro ((h | h) | h)
    · revert h; decide
    · exact hdollar h
    · revert h; decide
  have heq := instructionText_eq originalName
  rw [getSubstitution_of_no_dollar _ _ _ _ _ (le_refl _) hq] at heq
  rw [heq]
  simp only [String.toList, String.data_append, List.append_assoc]
  rfl

/-- C10 fails on the code: the replacement overwrites the field name
`source_document` of the schema itself. For every file name without a dollar sign
in which `source_document` does not occur, the instruction text does not name
`source_document`; its schema line for that field reads
`- ""<file name>"": (string) The name of the file this was extracted from.` -/
theorem instruction_text_loses_field (originalName : String)
    (hdollar : '$' ∉ originalName.toList)
    (hname : ¬ "source_document".toList <:+: originalName.toList) :
    strIncludes (instructionText originalName) "source_document" = false ∧
      strIncludes (instructionText originalName)
        ("- \"\"" ++ originalName ++
          "\"\": (string) The name of the file this was extracted from.") = true := by
  have htext := instructionText_of_no_dollar originalName hdollar
  constructor
  · rw [Bool.eq_false_iff]
    intro h
    rw [strIncludes_iff, htext] at h
    rcases infix_of_infix_append_cons _ _ _ '"' (by decide) h with h1 | h2
    · have : occursIn "source_document".toList promptParts.1 = false := by decide!
      rw [(occursIn_iff _ _).mpr h1] at this
      exact Bool.noConfusion this
    · rcases infix_of_infix_append_cons _ _ _ '"' (by decide) h2 with h3 | h4
      · exact hname h3
      · have : occursIn "source_document".toList promptParts.2 = false := by decide!
        rw [(occursIn_iff _ _).mpr h4] at this
        exact Bool.noConfusion this
  · rw [strIncludes_iff, htext]
    have hpre : "- \"".toList <:+ promptParts.1 := by
      rw [← List.isSuffixOf_iff_suffix]
      decide!
    have hpost : "\": (string) The name of the file this was extracted from.".toList <+:
        promptParts.2 := by
      rw [← List.isPrefixOf_iff_prefix]
      decide!
    obtain ⟨a, ha⟩ := hpre
    obtain ⟨b, hb⟩ := hpost
    refine ⟨a, b, ?_⟩
    rw [← ha, ← hb]
    simp only [String.toList, String.data_append, List.append_assoc]
    rfl

/-- The failing input of C10: for the file name `a.pdf` the instruction text does
not contain `source_document`, and the schema line of that field has become
`- ""a.pdf"": (string) The name of the file this was extracted from.` -/
theorem instruction_text_loses_field_witness :
    strIncludes (instructionText "a.pdf") "source_document" = false ∧
      strIncludes (instructionText "a.pdf")
        "- \"\"a.pdf\"\": (string) The name of the file this was extracted from." = true :=
  instruction_text_loses_field "a.pdf" (by decide) (by decide)

/-! ## Properties of the fence stripping -/

theorem dropWhile_append_of_all (p : Char → Bool) (pre l : List Char)
    (hpre : ∀ c ∈ pre, p c = true) : (pre ++ l).dropWhile p = l.dropWhile p := by
  induction pre with
  | nil => rfl
  | cons c pre ih =>
    have hc := hpre c (List.mem_cons_self c pre)
    simp only [List.cons_append, List.dropWhile_cons, hc, if_true]
    exact ih (fun x hx => hpre x (List.mem_cons_of_mem c hx))

theorem dropWhile_of_head (p : Char → Bool) (a : Char) (l : List Char) (ha : p a = false) :
    (a :: l).dropWhile p = a :: l := by
  simp [List.dropWhile_cons, ha]

/-- Trimming removes white space around a text that neither starts nor ends with
white space, and nothing else. -/
theorem trim_sandwich (pre post inner : List Char) (a b : Char)
    (hpre : ∀ c ∈ pre, isJsWhitespace c = true) (hpost : ∀ c ∈ post, isJsWhitespace c = true)
    (ha : isJsWhitespace a = false) (hb : isJsWhitespace b = false) :
    trim (pre ++ (a :: inner ++ [b]) ++ post) = a :: inner ++ [b] := by
  unfold trim
  rw [List.append_assoc, dropWhile_append_of_all _ _ _ hpre]
  rw [List.cons_append, List.cons_append, dropWhile_of_head _ _ _ ha]
  have hrev : (a :: (inner ++ [b] ++ post)).reverse =
      post.reverse ++ (b :: (a :: inner).reverse) := by
    simp
  rw [hrev, dropWhile_append_of_all _ _ _ (fun c hc => hpost c (List.mem_reverse.mp hc)),
    dropWhile_of_head _ _ _ hb]
  simp

theorem stripLeadingFence_fenced (rest : List Char) :
    stripLeadingFence ("```json\n".toList ++ rest) = rest := by
  rfl

theorem stripTrailingFence_fenced (body : List Char) :
    stripTrailingFence (body ++ "\n```".toList) = body := by
  unfold stripTrailingFence
  have h : ("\n```".toList).isSuffixOf (body ++ "\n```".toList) = true := by
    rw [List.isSuffixOf_iff_suffix]
    exact List.suffix_append _ _
  rw [if_pos h]
  have hlen : (body ++ "\n```".toList).length - 4 = body.length := by
    simp [List.length_append]
  rw [hlen, List.take_left']
  rfl

/-- A suffix of a list ends as the list does. -/
theorem getLast?_of_suffix (l₁ l₂ : List Char) (h : l₁ <:+ l₂) (hne : l₁ ≠ []) :
    l₁.getLast? = l₂.getLast? := by
  obtain ⟨t, rfl⟩ := h
  rw [List.getLast?_append_of_ne_nil _ hne]

/-- A fenced text, with white space around it, loses exactly the fences and the
white space. -/
theorem jsonString_of_fenced (s pre post : String)
    (hpre : ∀ c ∈ pre.toList, isJsWhitespace c = true)
    (hpost : ∀ c ∈ post.toList, isJsWhitespace c = true) :
    jsonString (pre ++ "```json\n" ++ s ++ "\n```" ++ post) = s := by
  have hmid : ("```json\n" : String).toList ++ s.toList ++ ("\n```" : String).toList =
      Char.ofNat 96 :: (("``json\n" : String).toList ++ s.toList ++ ("\n``" : String).toList) ++
        [Char.ofNat 96] := by
    simp [String.toList]
  have htrim : trim (pre ++ "```json\n" ++ s ++ "\n```" ++ post).toList =
      ("```json\n" : String).toList ++ s.toList ++ ("\n```" : String).toList := by
    have := trim_sandwich pre.toList post.toList
      (("``json\n" : String).toList ++ s.toList ++ ("\n``" : String).toList)
      (Char.ofNat 96) (Char.ofNat 96) hpre hpost (by decide) (by decide)
    rw [hmid, ← this]
    simp [String.toList, List.append_assoc]
  unfold jsonString
  rw [htrim, List.append_assoc, stripLeadingFence_fenced, stripTrailingFence_fenced]
  rfl


/-! ## Properties of the JSON reader -/

theorem head?_append_congr (x rest rest' : List Char) (h : rest'.head? = rest.head?) :
    (x ++ rest').head? = (x ++ rest).head? := by
  cases x with
  | nil => exact h
  | cons a x => rfl

theorem skipWs_append_ws (ws cs : List Char) (hws : ∀ c ∈ ws, isJsonWhitespace c = true) :
    skipWs (ws ++ cs) = skipWs cs := by
  induction ws with
  | nil => rfl
  | cons c ws ih =>
    have hc := hws c (List.mem_cons_self c ws)
    simp only [List.cons_append, skipWs, hc, if_true]
    exact ih (fun x hx => hws x (List.mem_cons_of_mem c hx))

theorem skipWs_cons_of_not_ws (c : Char) (cs : List Char) (hc : isJsonWhitespace c = false) :
    skipWs (c :: cs) = c :: cs := by
  simp [skipWs, hc]

/-- What `skipWs` drops is white space, and what it leaves does not start with
white space. -/
theorem skipWs_spec (cs : List Char) :
    ∃ ws, cs = ws ++ skipWs cs ∧ (∀ c ∈ ws, isJsonWhitespace c = true) ∧
      ∀ d t, skipWs cs = d :: t → isJsonWhitespace d = false := by
  induction cs with
  | nil => exact ⟨[], rfl, by simp, by simp [skipWs]⟩
  | cons c cs ih =>
    by_cases hc : isJsonWhitespace c = true
    · obtain ⟨ws, h1, h2, h3⟩ := ih
      refine ⟨c :: ws, ?_, ?_, ?_⟩
      · simp only [skipWs, hc, if_true, List.cons_append]
        rw [← h1]
      · intro x hx
        rcases List.mem_cons.mp hx with rfl | hx
        · exact hc
        · exact h2 x hx
      · intro d t hd
        simp only [skipWs, hc, if_true] at hd
        exact h3 d t hd
    · have hc' : isJsonWhitespace c = false := by simpa using hc
      refine ⟨[], ?_, by simp, ?_⟩
      · simp [skipWs, hc']
      · intro d t hd
        simp only [skipWs, hc', Bool.false_eq_true, if_false, List.cons.injEq] at hd
        rw [← hd.1]
        exact hc'

theorem takeDigits_spec (cs : List Char) :
    cs = (takeDigits cs).1 ++ (takeDigits cs).2 ∧
      (∀ c ∈ (takeDigits cs).1, c.isDigit = true) ∧
      ∀ c, (takeDigits cs).2.head? = some c → c.isDigit = false := by
  induction cs with
  | nil => simp [takeDigits]
  | cons c cs ih =>
    by_cases hc : c.isDigit = true
    · obtain ⟨h1, h2, h3⟩ := ih
      simp only [takeDigits, hc, if_true, List.cons_append]
      refine ⟨by rw [← h1], ?_, h3⟩
      intro x hx
      rcases List.mem_cons.mp hx with rfl | hx
      · exact hc
      · exact h2 x hx
    · have hc' : c.isDigit = false := by simpa using hc
      simp [takeDigits, hc']

theorem takeDigits_append (ds rest : List Char) (hds : ∀ c ∈ ds, c.isDigit = true)
    (hrest : ∀ c, rest.head? = some c → c.isDigit = false) :
    takeDigits (ds ++ rest) = (ds, rest) := by
  induction ds with
  | nil =>
    cases rest with
    | nil => rfl
    | cons c rest =>
      have := hrest c rfl
      simp [takeDigits, this]
  | cons d ds ih =>
    have hd := hds d (List.mem_cons_self d ds)
    have ih' := ih (fun x hx => hds x (List.mem_cons_of_mem d hx))
    simp only [List.cons_append, takeDigits, hd, if_true, List.append_eq, ih']

/-- Reading digits again in front of a text that starts as the old rest did gives
the same digits. -/
theorem takeDigits_local (cs rest' : List Char)
    (h : rest'.head? = (takeDigits cs).2.head?) :
    takeDigits ((takeDigits cs).1 ++ rest') = ((takeDigits cs).1, rest') := by
  obtain ⟨_, h2, h3⟩ := takeDigits_spec cs
  exact takeDigits_append _ _ h2 (fun c hc => h3 c (by rw [← h, hc]))

theorem parseInt_local : NumLocal parseInt := by
  intro cs r h
  cases cs with
  | nil => simp [parseInt] at h
  | cons c rest =>
    unfold parseInt at h
    by_cases h0 : c = '0'
    · simp only [h0, if_true, Option.some.injEq] at h
      subst h
      subst h0
      refine ⟨rfl, ?_⟩
      intro rest' _
      simp [parseInt]
    · by_cases hd : c.isDigit = true
      · simp only [h0, hd, if_true, if_false, Option.some.injEq] at h
        subst h
        obtain ⟨h1, _, _⟩ := takeDigits_spec (c :: rest)
        refine ⟨h1, ?_⟩
        intro rest' hrest'
        have hloc := takeDigits_local (c :: rest) rest' hrest'
        have hfst : (takeDigits (c :: rest)).1 = c :: (takeDigits rest).1 := by
          simp [takeDigits, hd]
        rw [hfst] at hloc ⊢
        rw [List.cons_append] at hloc ⊢
        unfold parseInt
        simp only [h0, hd, if_true, if_false, hloc]
      · simp [h0, hd] at h

theorem parseFrac_local : NumLocal parseFrac := by
  intro cs r h
  cases cs with
  | nil =>
    simp only [parseFrac, Option.some.injEq] at h
    subst h
    refine ⟨rfl, ?_⟩
    intro rest' hrest'
    have : rest' = [] := by
      cases rest' with
      | nil => rfl
      | cons a t => simp at hrest'
    subst this
    rfl
  | cons c rest =>
    unfold parseFrac at h
    by_cases hp : c = '.'
    · by_cases he : (takeDigits rest).1.isEmpty = true
      · simp [hp, he] at h
      · have he' : (takeDigits rest).1.isEmpty = false := by simpa using he
        simp only [hp, he', if_true, Bool.false_eq_true, if_false, Option.some.injEq] at h
        subst h
        obtain ⟨h1, _, _⟩ := takeDigits_spec rest
        refine ⟨by simp only [List.cons_append]; rw [← h1, hp], ?_⟩
        intro rest' hrest'
        have hloc := takeDigits_local rest rest' hrest'
        simp only [List.cons_append]
        unfold parseFrac
        simp only [if_true, hloc, he', Bool.false_eq_true, if_false]
    · simp only [hp, if_false, Option.some.injEq] at h
      subst h
      refine ⟨rfl, ?_⟩
      intro rest' hrest'
      cases rest' with
      | nil => simp at hrest'
      | cons a t =>
        have ha : a = c := by simpa using hrest'
        subst ha
        simp [parseFrac, hp]

theorem parseExpDigits_local (pre cs : List Char) (r : List Char × List Char)
    (h : parseExpDigits pre cs = some r) :
    ∃ ds, ds ≠ [] ∧ r.1 = pre ++ ds ∧ cs = ds ++ r.2 ∧
      ∀ rest', rest'.head? = r.2.head? →
        parseExpDigits pre (ds ++ rest') = some (pre ++ ds, rest') := by
  unfold parseExpDigits at h
  by_cases he : (takeDigits cs).1.isEmpty = true
  · simp [he] at h
  · have he' : (takeDigits cs).1.isEmpty = false := by simpa using he
    simp only [he', Bool.false_eq_true, if_false, Option.some.injEq] at h
    subst h
    obtain ⟨h1, _, _⟩ := takeDigits_spec cs
    refine ⟨(takeDigits cs).1, ?_, rfl, h1, ?_⟩
    · intro hnil
      rw [hnil] at he'
      simp at he'
    · intro rest' hrest'
      have hloc := takeDigits_local cs rest' hrest'
      unfold parseExpDigits
      simp only [hloc, he', Bool.false_eq_true, if_false]

theorem parseExp_local : NumLocal parseExp := by
  intro cs r h
  cases cs with
  | nil =>
    simp only [parseExp, Option.some.injEq] at h
    subst h
    refine ⟨rfl, ?_⟩
    intro rest' hrest'
    have : rest' = [] := by
      cases rest' with
      | nil => rfl
      | cons a t => simp at hrest'
    subst this
    rfl
  | cons c rest =>
    unfold parseExp at h
    by_cases hc : c = 'e' ∨ c = 'E'
    · simp only [hc, if_true] at h
      cases rest with
      | nil => simp at h
      | cons s rest1 =>
        by_cases hs : s = '+' ∨ s = '-'
        · simp only [hs, if_true] at h
          obtain ⟨ds, _, h1, h2, h3⟩ := parseExpDigits_local _ _ _ h
          refine ⟨by rw [h1, h2]; simp, ?_⟩
          intro rest' hrest'
          rw [h1]
          simp only [List.cons_append, List.nil_append]
          unfold parseExp
          simp only [hc, hs, if_true]
          exact h3 rest' hrest'
        · simp only [hs, if_false] at h
          obtain ⟨ds, hne, h1, h2, h3⟩ := parseExpDigits_local _ _ _ h
          refine ⟨by rw [h1, h2]; simp, ?_⟩
          intro rest' hrest'
          rw [h1]
          cases ds with
          | nil => exact absurd rfl hne
          | cons d ds =>
            have hd : d = s := by
              have := congrArg List.head? h2
              simpa using this.symm
            subst hd
            simp only [List.cons_append, List.nil_append]
            unfold parseExp
            simp only [hc, hs, if_true, if_false]
            exact h3 rest' hrest'
    · simp only [hc, if_false, Option.some.injEq] at h
      subst h
      refine ⟨rfl, ?_⟩
      intro rest' hrest'
      cases rest' with
      | nil => simp at hrest'
      | cons a t =>
        have ha : a = c := by simpa using hrest'
        subst ha
        simp [parseExp, hc]

theorem parseUnsigned_local : NumLocal parseUnsigned := by
  intro cs r h
  unfold parseUnsigned at h
  cases hi : parseInt cs with
  | none => simp [hi] at h
  | some i =>
    cases hf : parseFrac i.2 with
    | none => simp [hi, hf] at h
    | some f =>
      cases he : parseExp f.2 with
      | none => simp [hi, hf, he] at h
      | some e =>
        simp only [hi, hf, he, Option.some.injEq] at h
        subst h
        obtain ⟨i1, i2⟩ := parseInt_local cs i hi
        obtain ⟨f1, f2⟩ := parseFrac_local i.2 f hf
        obtain ⟨e1, e2⟩ := parseExp_local f.2 e he
        refine ⟨by rw [i1, f1, e1]; simp only [List.append_assoc], ?_⟩
        intro rest' hrest'
        have he' := e2 rest' hrest'
        have hhead2 : (e.1 ++ rest').head? = f.2.head? := by
          rw [e1]
          exact head?_append_congr e.1 e.2 rest' hrest'
        have hf' := f2 (e.1 ++ rest') hhead2
        have hhead1 : (f.1 ++ (e.1 ++ rest')).head? = i.2.head? := by
          rw [f1]
          exact head?_append_congr f.1 f.2 (e.1 ++ rest') hhead2
        have hi' := i2 (f.1 ++ (e.1 ++ rest')) hhead1
        unfold parseUnsigned
        simp only [List.append_assoc, hi', hf', he']

theorem parseInt_head (cs : List Char) (r : List Char × List Char) (h : parseInt cs = some r) :
    ∃ c t, cs = c :: t ∧ c.isDigit = true ∧ ∃ t', r.1 = c :: t' := by
  cases cs with
  | nil => simp [parseInt] at h
  | cons c rest =>
    unfold parseInt at h
    by_cases h0 : c = '0'
    · simp only [h0, if_true, Option.some.injEq] at h
      subst h
      exact ⟨c, rest, rfl, by rw [h0]; decide, [], by rw [h0]⟩
    · by_cases hd : c.isDigit = true
      · simp only [h0, hd, if_true, if_false, Option.some.injEq] at h
        subst h
        exact ⟨c, rest, rfl, hd, (takeDigits rest).1, by simp [takeDigits, hd]⟩
      · simp [h0, hd] at h

theorem parseUnsigned_head (cs : List Char) (r : List Char × List Char)
    (h : parseUnsigned cs = some r) :
    ∃ c t, cs = c :: t ∧ c.isDigit = true ∧ ∃ t', r.1 = c :: t' := by
  unfold parseUnsigned at h
  cases hi : parseInt cs with
  | none => simp [hi] at h
  | some i =>
    cases hf : parseFrac i.2 with
    | none => simp [hi, hf] at h
    | some f =>
      cases he : parseExp f.2 with
      | none => simp [hi, hf, he] at h
      | some e =>
        simp only [hi, hf, he, Option.some.injEq] at h
        subst h
        obtain ⟨c, t, h1, h2, t', h3⟩ := parseInt_head cs i hi
        exact ⟨c, t, h1, h2, t' ++ f.1 ++ e.1, by simp [h3]⟩

theorem parseNumber_local : NumLocal parseNumber := by
  intro cs r h
  cases cs with
  | nil => simp [parseNumber] at h
  | cons c rest =>
    unfold parseNumber at h
    by_cases hm : c = '-'
    · simp only [hm, if_true] at h
      cases hu : parseUnsigned rest with
      | none => simp [hu] at h
      | some u =>
        simp only [hu, Option.some.injEq] at h
        subst h
        obtain ⟨u1, u2⟩ := parseUnsigned_local rest u hu
        refine ⟨by simp only [List.cons_append]; rw [← u1, hm], ?_⟩
        intro rest' hrest'
        simp only [List.cons_append]
        unfold parseNumber
        simp only [if_true, u2 rest' hrest']
    · simp only [hm, if_false] at h
      obtain ⟨u1, u2⟩ := parseUnsigned_local (c :: rest) r h
      refine ⟨u1, ?_⟩
      intro rest' hrest'
      obtain ⟨d, t, h1, _, t', h3⟩ := parseUnsigned_head (c :: rest) r h
      have hd : d = c := by
        have := congrArg List.head? h1
        simpa using this.symm
      subst hd
      rw [h3, List.cons_append]
      unfold parseNumber
      simp only [hm, if_false]
      have := u2 rest' hrest'
      rw [h3, List.cons_append] at this
      exact this

/-- A number starts with a minus sign or a digit. -/
theorem parseNumber_head (cs : List Char) (r : List Char × List Char)
    (h : parseNumber cs = some r) :
    ∃ c t, r.1 = c :: t ∧ (c = '-' ∨ c.isDigit = true) := by
  cases cs with
  | nil => simp [parseNumber] at h
  | cons c rest =>
    unfold parseNumber at h
    by_cases hm : c = '-'
    · simp only [hm, if_true] at h
      cases hu : parseUnsigned rest with
      | none => simp [hu] at h
      | some u =>
        simp only [hu, Option.some.injEq] at h
        subst h
        exact ⟨'-', u.1, rfl, Or.inl rfl⟩
    · simp only [hm, if_false] at h
      obtain ⟨d, t, _, h2, t', h3⟩ := parseUnsigned_head (c :: rest) r h
      exact ⟨d, t', h3, Or.inr h2⟩

/-- Reading a string does not look past its closing quote. -/
theorem parseStringBody_local :
    ∀ (n : Nat) (cs : List Char), cs.length ≤ n → ∀ r, parseStringBody cs = some r →
      ∃ consumed, cs = consumed ++ '"' :: r.2 ∧
        ∀ rest', parseStringBody (consumed ++ '"' :: rest') = some (r.1, rest') := by
  intro n
  induction n with
  | zero =>
    intro cs hlen r h
    have : cs = [] := List.length_eq_zero.mp (Nat.le_zero.mp hlen)
    subst this
    simp [parseStringBody] at h
  | succ n ih =>
    intro cs hlen r h
    cases cs with
    | nil => simp [parseStringBody] at h
    | cons c rest =>
      have hrest : rest.length ≤ n := by
        simp only [List.length_cons] at hlen
        omega
      unfold parseStringBody at h
      by_cases hq : c = '"'
      · simp only [hq, if_true, Option.some.injEq] at h
        subst h
        refine ⟨[], by simp [hq], ?_⟩
        intro rest'
        unfold parseStringBody
        simp
      · simp only [hq, if_false] at h
        by_cases hb : c = '\\'
        · subst hb
          simp only [if_true] at h
          cases rest with
          | nil => simp at h
          | cons e rest1 =>
            simp only at h
            by_cases hu : e = 'u'
            · simp only [hu, if_true] at h
              match rest1, h, hrest with
              | h1 :: h2 :: h3 :: h4 :: rest2, h, hrest =>
                simp only at h
                cases ha : hexValue h1 <;> cases hbb : hexValue h2 <;>
                  cases hcc : hexValue h3 <;> cases hd : hexValue h4 <;>
                  cases hp : parseStringBody rest2 <;>
                  simp only [ha, hbb, hcc, hd, hp, reduceCtorEq] at h
                rename_i a b c4 d p
                simp only [Option.some.injEq] at h
                subst h
                have hlen2 : rest2.length ≤ n := by
                  simp only [List.length_cons] at hrest
                  omega
                obtain ⟨consumed, hc1, hc2⟩ := ih rest2 hlen2 p hp
                refine ⟨'\\' :: e :: h1 :: h2 :: h3 :: h4 :: consumed, ?_, ?_⟩
                · simp only [List.cons_append]
                  rw [← hc1]
                · intro rest'
                  simp only [List.cons_append]
                  unfold parseStringBody
                  simp only [hq, hu, if_true, if_false, ha, hbb, hcc, hd, hc2 rest']
              | [], h, _ => simp at h
              | [_], h, _ => simp at h
              | [_, _], h, _ => simp at h
              | [_, _, _], h, _ => simp at h
            · simp only [hu, if_false] at h
              cases hs : simpleEscape e <;> cases hp : parseStringBody rest1 <;>
                simp only [hs, hp, reduceCtorEq] at h
              rename_i unit p
              simp only [Option.some.injEq] at h
              subst h
              have hlen1 : rest1.length ≤ n := by
                simp only [List.length_cons] at hrest
                omega
              obtain ⟨consumed, hc1, hc2⟩ := ih rest1 hlen1 p hp
              refine ⟨'\\' :: e :: consumed, ?_, ?_⟩
              · simp only [List.cons_append]
                rw [← hc1]
              · intro rest'
                simp only [List.cons_append]
                unfold parseStringBody
                simp only [hq, hu, if_true, if_false, hs, hc2 rest']
        · simp only [hb, if_false] at h
          by_cases hctl : c.toNat < 0x20
          · simp [hctl] at h
          · simp only [hctl, if_false] at h
            cases hp : parseStringBody rest with
            | none => simp [hp] at h
            | some p =>
              simp only [hp, Option.some.injEq] at h
              subst h
              obtain ⟨consumed, hc1, hc2⟩ := ih rest hrest p hp
              refine ⟨c :: consumed, ?_, ?_⟩
              · simp only [List.cons_append]
                rw [← hc1]
              · intro rest'
                simp only [List.cons_append]
                unfold parseStringBody
                simp [hq, hb, hctl, hc2 rest']

theorem skipWs_of_skipWs_eq (cs consumed rest rest' : List Char)
    (h : skipWs cs = consumed ++ rest) (hne : consumed ≠ []) :
    skipWs (consumed ++ rest') = consumed ++ rest' := by
  obtain ⟨_, _, _, h3⟩ := skipWs_spec cs
  obtain ⟨c, t, rfl⟩ := List.exists_cons_of_ne_nil hne
  exact skipWs_cons_of_not_ws c _ (h3 c (t ++ rest) h)

theorem elementsLocal_succ (f : Nat) (hv : ValueLocal f) (he : ElementsLocal f) :
    ElementsLocal (f + 1) := by
  intro cs r h
  unfold parseElements at h
  cases hpv : parseValue f cs with
  | none => simp [hpv] at h
  | some v =>
    simp only [hpv] at h
    obtain ⟨cV, hcs, hVne, _, hVloc⟩ := hv cs v hpv
    obtain ⟨ws, hws1, hws2, _⟩ := skipWs_spec v.2
    cases hsk : skipWs v.2 with
    | nil => simp [hsk] at h
    | cons d rest1 =>
      simp only [hsk] at h
      rw [hsk] at hws1
      by_cases hcomma : d = ','
      · subst hcomma
        simp only [if_true] at h
        cases hpe : parseElements f (skipWs rest1) with
        | none => simp [hpe] at h
        | some e =>
          simp only [hpe, Option.some.injEq] at h
          subst h
          obtain ⟨cE, hE1, hEne, hEloc⟩ := he _ e hpe
          obtain ⟨ws2, hws21, hws22, _⟩ := skipWs_spec rest1
          refine ⟨cV ++ ws ++ ',' :: ws2 ++ cE, ?_, by simp [hVne], ?_⟩
          · show cs = _ ++ e.2
            rw [hcs, hws1, hws21, hE1]
            simp only [List.append_assoc, List.cons_append]
          · intro f' rest' hb
            cases f' with
            | zero =>
              simp only [List.length_append, List.length_cons] at hb
              have := List.length_pos.mpr hVne
              omega
            | succ g =>
              have hb1 : 2 * cV.length ≤ g + 1 := by
                simp only [List.length_append, List.length_cons] at hb
                omega
              have hb2 : 2 * cE.length ≤ g := by
                simp only [List.length_append, List.length_cons] at hb
                omega
              have hhead : (ws ++ ',' :: (ws2 ++ (cE ++ rest'))).head? = v.2.head? := by
                rw [hws1]
                cases ws <;> rfl
              have hV' := hVloc (g + 1 - 1 + 0) (ws ++ ',' :: (ws2 ++ (cE ++ rest')))
                (by simp only [Nat.add_sub_cancel, Nat.add_zero]; exact hb1) (Or.inr hhead)
              simp only [Nat.add_sub_cancel, Nat.add_zero] at hV'
              have hsk1 : skipWs (ws ++ ',' :: (ws2 ++ (cE ++ rest'))) =
                  ',' :: (ws2 ++ (cE ++ rest')) := by
                rw [skipWs_append_ws _ _ hws2]
                exact skipWs_cons_of_not_ws _ _ (by decide)
              have hsk2 : skipWs (ws2 ++ (cE ++ rest')) = cE ++ rest' := by
                rw [skipWs_append_ws _ _ hws22]
                exact skipWs_of_skipWs_eq rest1 cE e.2 rest' hE1 hEne
              simp only [List.append_assoc, List.cons_append]
              unfold parseElements
              simp only [hV', hsk1, if_true, hsk2, hEloc g rest' hb2]
      · simp only [hcomma, if_false] at h
        by_cases hclose : d = ']'
        · subst hclose
          simp only [if_true, Option.some.injEq] at h
          subst h
          refine ⟨cV ++ ws ++ [']'], ?_, by simp, ?_⟩
          · show cs = _ ++ rest1
            rw [hcs, hws1]
            simp only [List.append_assoc, List.cons_append, List.nil_append]
          · intro f' rest' hb
            cases f' with
            | zero =>
              simp only [List.length_append, List.length_cons] at hb
              omega
            | succ g =>
              have hb1 : 2 * cV.length ≤ g + 1 := by
                simp only [List.length_append, List.length_cons] at hb
                omega
              have hhead : (ws ++ ']' :: rest').head? = v.2.head? := by
                rw [hws1]
                cases ws <;> rfl
              have hV' := hVloc g (ws ++ ']' :: rest') hb1 (Or.inr hhead)
              have hsk1 : skipWs (ws ++ ']' :: rest') = ']' :: rest' := by
                rw [skipWs_append_ws _ _ hws2]
                exact skipWs_cons_of_not_ws _ _ (by decide)
              simp only [List.append_assoc, List.cons_append, List.nil_append]
              unfold parseElements
              simp only [hV', hsk1, hcomma, if_true, if_false]
        · simp [hclose] at h

theorem membersLocal_succ (f : Nat) (hv : ValueLocal f) (hm : MembersLocal f) :
    MembersLocal (f + 1) := by
  intro cs r h
  unfold parseMembers at h
  cases cs with
  | nil => simp at h
  | cons q rest =>
    simp only at h
    by_cases hq : q = '"'
    · subst hq
      simp only [if_true] at h
      cases hps : parseStringBody rest with
      | none => simp [hps] at h
      | some key =>
        simp only [hps] at h
        obtain ⟨cK, hK1, hKloc⟩ := parseStringBody_local rest.length rest (le_refl _) key hps
        obtain ⟨wsA, hA1, hA2, _⟩ := skipWs_spec key.2
        cases hskA : skipWs key.2 with
        | nil => simp [hskA] at h
        | cons colon rest1 =>
          simp only [hskA] at h
          rw [hskA] at hA1
          by_cases hcolon : colon = ':'
          · subst hcolon
            simp only [if_true] at h
            obtain ⟨wsB, hB1, hB2, _⟩ := skipWs_spec rest1
            cases hpv : parseValue f (skipWs rest1) with
            | none => simp [hpv] at h
            | some v =>
              simp only [hpv] at h
              obtain ⟨cV, hV1, hVne, _, hVloc⟩ := hv _ v hpv
              obtain ⟨wsC, hC1, hC2, _⟩ := skipWs_spec v.2
              cases hskC : skipWs v.2 with
              | nil => simp [hskC] at h
              | cons d rest2 =>
                simp only [hskC] at h
                rw [hskC] at hC1
                by_cases hcomma : d = ','
                · subst hcomma
                  simp only [if_true] at h
                  obtain ⟨wsD, hD1, hD2, _⟩ := skipWs_spec rest2
                  cases hpm : parseMembers f (skipWs rest2) with
                  | none => simp [hpm] at h
                  | some m =>
                    simp only [hpm, Option.some.injEq] at h
                    subst h
                    obtain ⟨cM, hM1, ⟨bodyM, hMbody⟩, hMloc⟩ := hm _ m hpm
                    have hMne : cM ≠ [] := by
                      rw [hMbody]
                      simp
                    refine ⟨'"' :: cK ++ '"' :: wsA ++ ':' :: wsB ++ cV ++ wsC ++ ',' :: wsD ++ cM,
                      ?_, ⟨'"' :: cK ++ '"' :: wsA ++ ':' :: wsB ++ cV ++ wsC ++ ',' :: wsD ++
                        bodyM, ?_⟩, ?_⟩
                    · show '"' :: rest = _ ++ m.2
                      rw [hK1, hA1, hB1, hV1, hC1, hD1, hM1]
                      simp only [List.append_assoc, List.cons_append]
                    · rw [hMbody]
                      simp only [List.append_assoc, List.cons_append]
                    · intro f' rest' hb
                      cases f' with
                      | zero =>
                        simp only [List.length_append, List.length_cons] at hb
                        omega
                      | succ g =>
                        have hb1 : 2 * cV.length ≤ g + 1 := by
                          simp only [List.length_append, List.length_cons] at hb
                          omega
                        have hb2 : 2 * cM.length ≤ g := by
                          simp only [List.length_append, List.length_cons] at hb
                          omega
                        have hhead : (wsC ++ ',' :: (wsD ++ (cM ++ rest'))).head? = v.2.head? := by
                          rw [hC1]
                          cases wsC <;> rfl
                        have hV' := hVloc g (wsC ++ ',' :: (wsD ++ (cM ++ rest'))) hb1
                          (Or.inr hhead)
                        have hsA : skipWs (wsA ++ ':' :: (wsB ++ (cV ++ (wsC ++ ',' ::
                            (wsD ++ (cM ++ rest')))))) =
                            ':' :: (wsB ++ (cV ++ (wsC ++ ',' :: (wsD ++ (cM ++ rest'))))) := by
                          rw [skipWs_append_ws _ _ hA2]
                          exact skipWs_cons_of_not_ws _ _ (by decide)
                        have hsB : skipWs (wsB ++ (cV ++ (wsC ++ ',' :: (wsD ++ (cM ++ rest'))))) =
                            cV ++ (wsC ++ ',' :: (wsD ++ (cM ++ rest'))) := by
                          rw [skipWs_append_ws _ _ hB2]
                          exact skipWs_of_skipWs_eq rest1 cV v.2 _ hV1 hVne
                        have hsC : skipWs (wsC ++ ',' :: (wsD ++ (cM ++ rest'))) =
                            ',' :: (wsD ++ (cM ++ rest')) := by
                          rw [skipWs_append_ws _ _ hC2]
                          exact skipWs_cons_of_not_ws _ _ (by decide)
                        have hsD : skipWs (wsD ++ (cM ++ rest')) = cM ++ rest' := by
                          rw [skipWs_append_ws _ _ hD2]
                          exact skipWs_of_skipWs_eq rest2 cM m.2 rest' hM1 hMne
                        simp only [List.append_assoc, List.cons_append]
                        unfold parseMembers
                        simp only [if_true, hKloc, hsA, hsB, hV', hsC, hsD, hMloc g rest' hb2]
                · simp only [hcomma, if_false] at h
                  by_cases hclose : d = '\x7d'
                  · subst hclose
                    simp only [if_true, Option.some.injEq] at h
                    subst h
                    refine ⟨'"' :: cK ++ '"' :: wsA ++ ':' :: wsB ++ cV ++ wsC ++ ['\x7d'],
                      ?_, ⟨'"' :: cK ++ '"' :: wsA ++ ':' :: wsB ++ cV ++ wsC, rfl⟩, ?_⟩
                    · show '"' :: rest = _ ++ rest2
                      rw [hK1, hA1, hB1, hV1, hC1]
                      simp only [List.append_assoc, List.cons_append, List.nil_append]
                    · intro f' rest' hb
                      cases f' with
                      | zero =>
                        simp only [List.length_append, List.length_cons] at hb
                        omega
                      | succ g =>
                        have hb1 : 2 * cV.length ≤ g + 1 := by
                          simp only [List.length_append, List.length_cons] at hb
                          omega
                        have hhead : (wsC ++ '\x7d' :: rest').head? = v.2.head? := by
                          rw [hC1]
                          cases wsC <;> rfl
                        have hV' := hVloc g (wsC ++ '\x7d' :: rest') hb1 (Or.inr hhead)
                        have hsA : skipWs (wsA ++ ':' :: (wsB ++ (cV ++ (wsC ++ '\x7d' ::
                            rest')))) = ':' :: (wsB ++ (cV ++ (wsC ++ '\x7d' :: rest'))) := by
                          rw [skipWs_append_ws _ _ hA2]
                          exact skipWs_cons_of_not_ws _ _ (by decide)
                        have hsB : skipWs (wsB ++ (cV ++ (wsC ++ '\x7d' :: rest'))) =
                            cV ++ (wsC ++ '\x7d' :: rest') := by
                          rw [skipWs_append_ws _ _ hB2]
                          exact skipWs_of_skipWs_eq rest1 cV v.2 _ hV1 hVne
                        have hsC : skipWs (wsC ++ '\x7d' :: rest') = '\x7d' :: rest' := by
                          rw [skipWs_append_ws _ _ hC2]
                          exact skipWs_cons_of_not_ws _ _ (by decide)
                        simp only [List.append_assoc, List.cons_append, List.nil_append]
                        unfold parseMembers
                        simp only [if_true, hKloc, hsA, hsB, hV', hsC, hcomma, if_false]
                  · simp [hclose] at h
          · simp [hcolon] at h
    · simp [hq] at h

theorem literal_prefix (lit cs : List Char) (h : lit.isPrefixOf cs = true) :
    cs = lit ++ cs.drop lit.length := by
  obtain ⟨t, ht⟩ := List.isPrefixOf_iff_prefix.mp h
  rw [← ht, List.drop_left]

theorem not_prefix_of_head (a : Char) (lit : List Char) (c : Char) (t : List Char)
    (h : c ≠ a) : (a :: lit).isPrefixOf (c :: t) = false := by
  have : (a == c) = false := by
    simpa using fun hh => h hh.symm
  simp [List.isPrefixOf, this]

/-- The first character of a number starts no other kind of value. -/
theorem number_head_ne (c : Char) (h : c = '-' ∨ c.isDigit = true) :
    c ≠ '\x7b' ∧ c ≠ '[' ∧ c ≠ '"' ∧ c ≠ 't' ∧ c ≠ 'f' ∧ c ≠ 'n' := by
  refine ⟨?_, ?_, ?_, ?_, ?_, ?_⟩ <;>
  · intro hc
    subst hc
    rcases h with h | h
    · revert h; decide
    · revert h; decide

theorem parseValue_true (g : Nat) (rest' : List Char) :
    parseValue (g + 1) ("true".toList ++ rest') = some (.bool true, rest') := by
  have e : "true".toList = ['t', 'r', 'u', 'e'] := rfl
  rw [e]
  unfold parseValue
  simp [e, List.isPrefixOf]

theorem parseValue_false (g : Nat) (rest' : List Char) :
    parseValue (g + 1) ("false".toList ++ rest') = some (.bool false, rest') := by
  have e : "true".toList = ['t', 'r', 'u', 'e'] := rfl
  have e2 : "false".toList = ['f', 'a', 'l', 's', 'e'] := rfl
  rw [e2]
  unfold parseValue
  simp [e, e2, List.isPrefixOf]

theorem parseValue_null (g : Nat) (rest' : List Char) :
    parseValue (g + 1) ("null".toList ++ rest') = some (.null, rest') := by
  have e : "true".toList = ['t', 'r', 'u', 'e'] := rfl
  have e2 : "false".toList = ['f', 'a', 'l', 's', 'e'] := rfl
  have e3 : "null".toList = ['n', 'u', 'l', 'l'] := rfl
  rw [e3]
  unfold parseValue
  simp [e, e2, e3, List.isPrefixOf]

theorem valueLocal_succ (f : Nat) (he : ElementsLocal f) (hm : MembersLocal f) :
    ValueLocal (f + 1) := by
  intro cs r h
  unfold parseValue at h
  cases cs with
  | nil => simp at h
  | cons c rest =>
    simp only at h
    by_cases hobj : c = '\x7b'
    · subst hobj
      simp only [if_true] at h
      obtain ⟨ws, hws1, hws2, hws3⟩ := skipWs_spec rest
      cases hsk : skipWs rest with
      | nil => simp [hsk] at h
      | cons d rest1 =>
        simp only [hsk] at h
        rw [hsk] at hws1
        have hdws : isJsonWhitespace d = false := hws3 d rest1 hsk
        by_cases hclose : d = '\x7d'
        · subst hclose
          simp only [if_true, Option.some.injEq] at h
          subst h
          refine ⟨'\x7b' :: ws ++ ['\x7d'], ?_, by simp, fun _ _ => ⟨ws, rfl⟩, ?_⟩
          · show '\x7b' :: rest = _ ++ rest1
            rw [hws1]
            simp only [List.append_assoc, List.cons_append, List.nil_append]
          · intro f' rest' hb _
            cases f' with
            | zero =>
              simp only [List.length_append, List.length_cons] at hb
              omega
            | succ g =>
              have hs : skipWs (ws ++ '\x7d' :: rest') = '\x7d' :: rest' := by
                rw [skipWs_append_ws _ _ hws2]
                exact skipWs_cons_of_not_ws _ _ (by decide)
              simp only [List.append_assoc, List.cons_append, List.nil_append]
              unfold parseValue
              simp only [if_true, hs]
        · simp only [hclose, if_false] at h
          cases hpm : parseMembers f (d :: rest1) with
          | none => simp [hpm] at h
          | some m =>
            simp only [hpm, Option.some.injEq] at h
            subst h
            obtain ⟨cM, hM1, ⟨bodyM, hMbody⟩, hMloc⟩ := hm _ m hpm
            have hMne : cM ≠ [] := by
              rw [hMbody]
              simp
            obtain ⟨x, cM', hx⟩ := List.exists_cons_of_ne_nil hMne
            have hxd : x = d := by
              rw [hx] at hM1
              have := congrArg List.head? hM1
              simpa using this.symm
            subst hxd
            refine ⟨'\x7b' :: ws ++ cM, ?_, by simp, fun _ _ => ⟨ws ++ bodyM, ?_⟩, ?_⟩
            · show '\x7b' :: rest = _ ++ m.2
              rw [hws1, hM1]
              simp only [List.append_assoc, List.cons_append]
            · rw [hMbody]
              simp only [List.append_assoc, List.cons_append]
            · intro f' rest' hb _
              cases f' with
              | zero =>
                simp only [List.length_append, List.length_cons] at hb
                omega
              | succ g =>
                have hb2 : 2 * (x :: cM').length ≤ g := by
                  rw [hx] at hb
                  simp only [List.length_append, List.length_cons] at hb ⊢
                  omega
                have hs : skipWs (ws ++ (x :: (cM' ++ rest'))) = x :: (cM' ++ rest') := by
                  rw [skipWs_append_ws _ _ hws2]
                  exact skipWs_cons_of_not_ws _ _ hdws
                have hM' := hMloc g rest' (by rw [hx]; exact hb2)
                rw [hx] at hM'
                simp only [List.cons_append] at hM'
                rw [hx]
                simp only [List.append_assoc, List.cons_append]
                unfold parseValue
                simp only [if_true, hs, hclose, if_false, hM']
    · simp only [hobj, if_false] at h
      by_cases harr : c = '['
      · subst harr
        simp only [if_true] at h
        obtain ⟨ws, hws1, hws2, hws3⟩ := skipWs_spec rest
        cases hsk : skipWs rest with
        | nil => simp [hsk] at h
        | cons d rest1 =>
          simp only [hsk] at h
          rw [hsk] at hws1
          have hdws : isJsonWhitespace d = false := hws3 d rest1 hsk
          by_cases hclose : d = ']'
          · subst hclose
            simp only [if_true, Option.some.injEq] at h
            subst h
            refine ⟨'[' :: ws ++ [']'], ?_, by simp, fun _ hms => Json.noConfusion hms, ?_⟩
            · show '[' :: rest = _ ++ rest1
              rw [hws1]
              simp only [List.append_assoc, List.cons_append, List.nil_append]
            · intro f' rest' hb _
              cases f' with
              | zero =>
                simp only [List.length_append, List.length_cons] at hb
                omega
              | succ g =>
                have hs : skipWs (ws ++ ']' :: rest') = ']' :: rest' := by
                  rw [skipWs_append_ws _ _ hws2]
                  exact skipWs_cons_of_not_ws _ _ (by decide)
                simp only [List.append_assoc, List.cons_append, List.nil_append]
                unfold parseValue
                simp only [hobj, if_true, if_false, hs]
          · simp only [hclose, if_false] at h
            cases hpe : parseElements f (d :: rest1) with
            | none => simp [hpe] at h
            | some e =>
              simp only [hpe, Option.some.injEq] at h
              subst h
              obtain ⟨cE, hE1, hEne, hEloc⟩ := he _ e hpe
              obtain ⟨x, cE', hx⟩ := List.exists_cons_of_ne_nil hEne
              have hxd : x = d := by
                rw [hx] at hE1
                have := congrArg List.head? hE1
                simpa using this.symm
              subst hxd
              refine ⟨'[' :: ws ++ cE, ?_, by simp, fun _ hms => Json.noConfusion hms, ?_⟩
              · show '[' :: rest = _ ++ e.2
                rw [hws1, hE1]
                simp only [List.append_assoc, List.cons_append]
              · intro f' rest' hb _
                cases f' with
                | zero =>
                  simp only [List.length_append, List.length_cons] at hb
                  omega
                | succ g =>
                  have hb2 : 2 * (x :: cE').length ≤ g := by
                    rw [hx] at hb
                    simp only [List.length_append, List.length_cons] at hb ⊢
                    omega
                  have hs : skipWs (ws ++ (x :: (cE' ++ rest'))) = x :: (cE' ++ rest') := by
                    rw [skipWs_append_ws _ _ hws2]
                    exact skipWs_cons_of_not_ws _ _ hdws
                  have hE' := hEloc g rest' (by rw [hx]; exact hb2)
                  rw [hx] at hE'
                  simp only [List.cons_append] at hE'
                  rw [hx]
                  simp only [List.append_assoc, List.cons_append]
                  unfold parseValue
                  simp only [hobj, if_true, hs, hclose, if_false, hE']
      · simp only [harr, if_false] at h
        by_cases hstr : c = '"'
        · subst hstr
          simp only [if_true] at h
          cases hps : parseStringBody rest with
          | none => simp [hps] at h
          | some s =>
            simp only [hps, Option.some.injEq] at h
            subst h
            obtain ⟨cS, hS1, hSloc⟩ := parseStringBody_local rest.length rest (le_refl _) s hps
            refine ⟨'"' :: cS ++ ['"'], ?_, by simp, fun _ hms => Json.noConfusion hms, ?_⟩
            · show '"' :: rest = _ ++ s.2
              rw [hS1]
              simp only [List.append_assoc, List.cons_append, List.nil_append]
            · intro f' rest' hb _
              cases f' with
              | zero =>
                simp only [List.length_append, List.length_cons] at hb
                omega
              | succ g =>
                simp only [List.append_assoc, List.cons_append, List.nil_append]
                unfold parseValue
                simp only [hobj, harr, if_true, if_false, hSloc rest']
        · simp only [hstr, if_false] at h
          by_cases htrue : "true".toList.isPrefixOf (c :: rest) = true
          · simp only [htrue, if_true, Option.some.injEq] at h
            subst h
            refine ⟨"true".toList, literal_prefix _ _ htrue, by decide,
              fun _ hms => Json.noConfusion hms, ?_⟩
            intro f' rest' hb _
            cases f' with
            | zero =>
              have : "true".toList.length = 4 := rfl
              omega
            | succ g => exact parseValue_true g rest'
          · have htrue' : "true".toList.isPrefixOf (c :: rest) = false :=
              Bool.eq_false_iff.mpr htrue
            simp only [htrue', Bool.false_eq_true, if_false] at h
            by_cases hfalse : "false".toList.isPrefixOf (c :: rest) = true
            · simp only [hfalse, if_true, Option.some.injEq] at h
              subst h
              refine ⟨"false".toList, literal_prefix _ _ hfalse, by decide,
                fun _ hms => Json.noConfusion hms, ?_⟩
              intro f' rest' hb _
              cases f' with
              | zero =>
                have : "false".toList.length = 5 := rfl
                omega
              | succ g => exact parseValue_false g rest'
            · have hfalse' : "false".toList.isPrefixOf (c :: rest) = false :=
                Bool.eq_false_iff.mpr hfalse
              simp only [hfalse', Bool.false_eq_true, if_false] at h
              by_cases hnull : "null".toList.isPrefixOf (c :: rest) = true
              · simp only [hnull, if_true, Option.some.injEq] at h
                subst h
                refine ⟨"null".toList, literal_prefix _ _ hnull, by decide,
                  fun _ hms => Json.noConfusion hms, ?_⟩
                intro f' rest' hb _
                cases f' with
                | zero =>
                  have : "null".toList.length = 4 := rfl
                  omega
                | succ g => exact parseValue_null g rest'
              · have hnull' : "null".toList.isPrefixOf (c :: rest) = false :=
                  Bool.eq_false_iff.mpr hnull
                simp only [hnull', Bool.false_eq_true, if_false] at h
                cases hpn : parseNumber (c :: rest) with
                | none => simp [hpn] at h
                | some n =>
                  simp only [hpn, Option.some.injEq] at h
                  subst h
                  obtain ⟨hN1, hNloc⟩ := parseNumber_local _ n hpn
                  obtain ⟨x, t, hx, hxhead⟩ := parseNumber_head _ n hpn
                  obtain ⟨n1, n2, n3, n4, n5, n6⟩ := number_head_ne x hxhead
                  refine ⟨n.1, hN1, by rw [hx]; simp, fun _ hms => Json.noConfusion hms, ?_⟩
                  intro f' rest' hb hcompat
                  have hhead : rest'.head? = n.2.head? := by
                    rcases hcompat with hno | hh
                    · exact absurd rfl (hno (String.mk n.1))
                    · exact hh
                  cases f' with
                  | zero =>
                    rw [hx] at hb
                    simp only [List.length_cons] at hb
                    omega
                  | succ g =>
                    have hN' := hNloc rest' hhead
                    rw [hx] at hN' ⊢
                    rw [List.cons_append] at hN' ⊢
                    unfold parseValue
                    have p1 : "true".toList.isPrefixOf (x :: (t ++ rest')) = false :=
                      not_prefix_of_head 't' _ x _ n4
                    have p2 : "false".toList.isPrefixOf (x :: (t ++ rest')) = false :=
                      not_prefix_of_head 'f' _ x _ n5
                    have p3 : "null".toList.isPrefixOf (x :: (t ++ rest')) = false :=
                      not_prefix_of_head 'n' _ x _ n6
                    simp only [n1, n2, n3, if_false, p1, p2, p3, Bool.false_eq_true, hN']

/-- Every reader of the JSON grammar is local, at every fuel. -/
theorem parse_local (f : Nat) : ValueLocal f ∧ ElementsLocal f ∧ MembersLocal f := by
  induction f with
  | zero =>
    refine ⟨?_, ?_, ?_⟩
    · intro cs r h
      simp [parseValue] at h
    · intro cs r h
      simp [parseElements] at h
    · intro cs r h
      simp [parseMembers] at h
  | succ f ih =>
    exact ⟨valueLocal_succ f ih.2.1 ih.2.2, elementsLocal_succ f ih.1 ih.2.1,
      membersLocal_succ f ih.1 ih.2.2⟩

theorem isJsWhitespace_of_json (c : Char) (h : isJsonWhitespace c = true) :
    isJsWhitespace c = true := by
  simp only [isJsonWhitespace, Bool.or_eq_true, decide_eq_true_eq] at h
  rcases h with ((h | h) | h) | h <;> subst h <;> decide

/-- A text that starts with an opening brace and ends with a closing brace has no
fence to strip. -/
theorem stripFences_of_braces (body : List Char) :
    stripTrailingFence (stripLeadingFence ('\x7b' :: body ++ ['\x7d'])) =
      '\x7b' :: body ++ ['\x7d'] := by
  have hlead : stripLeadingFence ('\x7b' :: body ++ ['\x7d']) = '\x7b' :: body ++ ['\x7d'] := rfl
  have hlast : ('\x7b' :: body ++ ['\x7d']).getLast? = some '\x7d' :=
    List.getLast?_concat _
  rw [hlead]
  unfold stripTrailingFence
  have h1 : ("\n```".toList).isSuffixOf ('\x7b' :: body ++ ['\x7d']) = false := by
    rw [Bool.eq_false_iff]
    intro h
    rw [List.isSuffixOf_iff_suffix] at h
    have := getLast?_of_suffix _ _ h (by decide)
    rw [hlast] at this
    revert this
    decide
  have h2 : ("```".toList).isSuffixOf ('\x7b' :: body ++ ['\x7d']) = false := by
    rw [Bool.eq_false_iff]
    intro h
    rw [List.isSuffixOf_iff_suffix] at h
    have := getLast?_of_suffix _ _ h (by decide)
    rw [hlast] at this
    revert this
    decide
  simp only [h1, h2, if_false, Bool.false_eq_true]

/-- A text that `JSON.parse` reads as an object is an object text, from brace to
brace, between JSON white space; the object text alone parses to the same
object. -/
theorem jsonParse_obj_text (s : String) (ms : List (List Nat × Json))
    (hparse : jsonParse s = some (.obj ms)) :
    ∃ ws1 body ws2, s.toList = ws1 ++ ('\x7b' :: body ++ ['\x7d']) ++ ws2 ∧
      (∀ c ∈ ws1, isJsonWhitespace c = true) ∧ (∀ c ∈ ws2, isJsonWhitespace c = true) ∧
      jsonParse (String.mk ('\x7b' :: body ++ ['\x7d'])) = some (.obj ms) := by
  unfold jsonParse at hparse
  simp only [String.toList] at hparse ⊢
  cases hpv : parseValue (2 * s.length + 2) (skipWs s.data) with
  | none => simp [hpv] at hparse
  | some r =>
    simp only [hpv] at hparse
    by_cases hend : (skipWs r.2).isEmpty = true
    · simp only [hend, if_true, Option.some.injEq] at hparse
      obtain ⟨ws1, h11, h12, _⟩ := skipWs_spec s.data
      obtain ⟨consumed, hc1, _, hc3, hcloc⟩ := (parse_local _).1 _ r hpv
      obtain ⟨body, hbody⟩ := hc3 ms hparse
      obtain ⟨ws2, h21, h22, _⟩ := skipWs_spec r.2
      have hnil : skipWs r.2 = [] := List.isEmpty_iff.mp hend
      rw [hnil, List.append_nil] at h21
      refine ⟨ws1, body, ws2, ?_, h12, h22, ?_⟩
      · rw [h11, hc1, hbody, h21]
        simp only [List.append_assoc]
      · have hloc := hcloc (2 * consumed.length + 2) []
          (by omega) (Or.inl (fun numeral hn => by rw [hparse] at hn; exact Json.noConfusion hn))
        rw [List.append_nil, hbody] at hloc
        unfold jsonParse
        have hlen : (String.mk ('\x7b' :: body ++ ['\x7d'])).length =
            ('\x7b' :: body ++ ['\x7d']).length := rfl
        have hsk : skipWs (String.mk ('\x7b' :: body ++ ['\x7d'])).toList =
            '\x7b' :: body ++ ['\x7d'] := by
          show skipWs ('\x7b' :: body ++ ['\x7d']) = _
          rw [List.cons_append]
          exact skipWs_cons_of_not_ws _ _ (by decide)
        rw [hlen, hsk, hloc]
        simp only [skipWs, List.isEmpty_nil, if_true, hparse]
    · simp [hend] at hparse

/-- The string handed to `JSON.parse` for a text that parses as an object is the
object text, which parses to the same object. -/
theorem jsonParse_jsonString_obj (s : String) (ms : List (List Nat × Json))
    (hparse : jsonParse s = some (.obj ms)) :
    jsonParse (jsonString s) = some (.obj ms) := by
  obtain ⟨ws1, body, ws2, hs, h1, h2, hp⟩ := jsonParse_obj_text s ms hparse
  have htrim : trim s.toList = '\x7b' :: body ++ ['\x7d'] := by
    rw [hs]
    exact trim_sandwich ws1 ws2 body '\x7b' '\x7d'
      (fun c hc => isJsWhitespace_of_json c (h1 c hc))
      (fun c hc => isJsWhitespace_of_json c (h2 c hc)) (by decide) (by decide)
  unfold jsonString
  rw [htrim, stripFences_of_braces]
  exact hp

/-- The fuel of `jsonParse` suffices: a value that some fuel finds is found with
every fuel of twice the length of the text. -/
theorem parseValue_fuel (f f' : Nat) (cs : List Char) (r : Json × List Char)
    (h : parseValue f cs = some r) (hf : 2 * cs.length ≤ f' + 1) :
    parseValue f' cs = some r := by
  obtain ⟨consumed, hc1, _, _, hloc⟩ := (parse_local f).1 cs r h
  have hlen : consumed.length ≤ cs.length := by
    rw [hc1, List.length_append]
    omega
  have := hloc f' r.2 (by omega) (Or.inr rfl)
  rw [← hc1] at this
  exact this

/-- C9. For a well-formed JSON text whose value is an object with a `coupons`
array, the fence-stripping parse of the text wrapped in fence markers, with any
white space around them, gives the same value as that of the text itself, namely
the value of the text; and stripping what was stripped once more changes nothing
in the value parsed. -/
theorem fence_roundtrip (s pre post : String) (v : Json) (items : List Json)
    (hparse : jsonParse s = some v) (hcoupons : v.get (utf16 "coupons") = some (.arr items))
    (hpre : ∀ c ∈ pre.toList, isJsWhitespace c = true)
    (hpost : ∀ c ∈ post.toList, isJsWhitespace c = true) :
    jsonParse (jsonString (pre ++ "```json\n" ++ s ++ "\n```" ++ post)) =
        jsonParse (jsonString s) ∧
      jsonParse (jsonString s) = some v ∧
      jsonParse (jsonString (jsonString (pre ++ "```json\n" ++ s ++ "\n```" ++ post))) =
        some v ∧
      jsonParse (jsonString (jsonString s)) = some v := by
  have hobj : ∃ ms, v = .obj ms := by
    cases v with
    | obj ms => exact ⟨ms, rfl⟩
    | null => simp [Json.get] at hcoupons
    | bool b => simp [Json.get] at hcoupons
    | num n => simp [Json.get] at hcoupons
    | str u => simp [Json.get] at hcoupons
    | arr a => simp [Json.get] at hcoupons
  obtain ⟨ms, rfl⟩ := hobj
  have h1 := jsonString_of_fenced s pre post hpre hpost
  have h2 := jsonParse_jsonString_obj s ms hparse
  have h3 := jsonParse_jsonString_obj (jsonString s) ms h2
  exact ⟨by rw [h1, h2, hparse], h2, by rw [h1, h2], h3⟩

/-- Witness for C9: an object with one coupon in its `coupons` array, between
blanks, fenced and followed by a line feed. -/
theorem fence_roundtrip_witness :
    jsonParse (jsonString ("" ++ "```json\n" ++
        " \x7b\"coupons\": [\x7b\"platform\": \"Amazon\", \"value\": \"10%\"\x7d]\x7d\n" ++
        "\n```" ++ "\n")) =
      jsonParse (jsonString
        " \x7b\"coupons\": [\x7b\"platform\": \"Amazon\", \"value\": \"10%\"\x7d]\x7d\n") ∧
    jsonParse (jsonString
        " \x7b\"coupons\": [\x7b\"platform\": \"Amazon\", \"value\": \"10%\"\x7d]\x7d\n") =
      some (.obj [(utf16 "coupons", .arr [.obj [(utf16 "platform", .str (utf16 "Amazon")),
        (utf16 "value", .str (utf16 "10%"))]])]) :=
  ⟨(fence_roundtrip
      " \x7b\"coupons\": [\x7b\"platform\": \"Amazon\", \"value\": \"10%\"\x7d]\x7d\n" "" "\n"
      (.obj [(utf16 "coupons", .arr [.obj [(utf16 "platform", .str (utf16 "Amazon")),
        (utf16 "value", .str (utf16 "10%"))]])])
      [.obj [(utf16 "platform", .str (utf16 "Amazon")), (utf16 "value", .str (utf16 "10%"))]]
      rfl rfl (by decide) (by decide)).1,
    (fence_roundtrip
      " \x7b\"coupons\": [\x7b\"platform\": \"Amazon\", \"value\": \"10%\"\x7d]\x7d\n" "" "\n"
      (.obj [(utf16 "coupons", .arr [.obj [(utf16 "platform", .str (utf16 "Amazon")),
        (utf16 "value", .str (utf16 "10%"))]])])
      [.obj [(utf16 "platform", .str (utf16 "Amazon")), (utf16 "value", .str (utf16 "10%"))]]
      rfl rfl (by decide) (by decide)).2.1⟩

/-! ## Properties of the extraction -/

/-- C6, as stated, fails: a response whose only coupon lacks `category`, `value`
and `expiry_date`, and a response without a `coupons` array, are both returned as
parsed; neither result has the shape asked for and neither is the error result. -/
theorem extract_unvalidated_counterexample :
    (extractCouponsFromDocument refEngine
        (fun _ => some "\x7b\"coupons\":[\x7b\"platform\":\"Amazon\"\x7d]\x7d") "a.pdf" =
        .obj [(utf16 "coupons", .arr [.obj [(utf16 "platform", .str (utf16 "Amazon"))]])] ∧
      isCouponsResult (extractCouponsFromDocument refEngine
        (fun _ => some "\x7b\"coupons\":[\x7b\"platform\":\"Amazon\"\x7d]\x7d") "a.pdf") = false ∧
      extractCouponsFromDocument refEngine
        (fun _ => some "\x7b\"coupons\":[\x7b\"platform\":\"Amazon\"\x7d]\x7d") "a.pdf" ≠
        errorResult) ∧
    (extractCouponsFromDocument refEngine (fun _ => some "\x7b\"offers\":[]\x7d") "a.pdf" =
        .obj [(utf16 "offers", .arr [])] ∧
      isCouponsResult (extractCouponsFromDocument refEngine
        (fun _ => some "\x7b\"offers\":[]\x7d") "a.pdf") = false ∧
      extractCouponsFromDocument refEngine (fun _ => some "\x7b\"offers\":[]\x7d") "a.pdf" ≠
        errorResult) := by
  have h1 : extractCouponsFromDocument refEngine
      (fun _ => some "\x7b\"coupons\":[\x7b\"platform\":\"Amazon\"\x7d]\x7d") "a.pdf" =
      .obj [(utf16 "coupons", .arr [.obj [(utf16 "platform", .str (utf16 "Amazon"))]])] := by
    rfl
  have h2 : extractCouponsFromDocument refEngine (fun _ => some "\x7b\"offers\":[]\x7d")
      "a.pdf" = .obj [(utf16 "offers", .arr [])] := by
    rfl
  refine ⟨⟨h1, ?_, ?_⟩, h2, ?_, ?_⟩
  · rw [h1]; decide!
  · rw [h1]
    intro h
    have hk : utf16 "coupons" = utf16 "error" := by
      injection h with h
      injection h with h
      injection h with h
    revert hk
    decide!
  · rw [h2]; decide!
  · rw [h2]
    intro h
    have hk : utf16 "offers" = utf16 "error" := by
      injection h with h
      injection h with h
      injection h with h
    revert hk
    decide!

/-- C6, amended. For every response text, `extractCouponsFromDocument` returns the
error result or the value `JSON.parse` gives for the trimmed text without its
fences: the error result when that text is not JSON, and the value, just as
parsed, when it is JSON and logging the value does not throw. In particular a text
that is a JSON object, fenced or not, is returned as that object whatever its
members, when logging it does not throw. -/
theorem extract_result (js : JsEngine) (responseText originalName : String) :
    (extractCouponsFromDocument js (fun _ => some responseText) originalName = errorResult ∨
      jsonParse (jsonString responseText) =
        some (extractCouponsFromDocument js (fun _ => some responseText) originalName)) ∧
    (jsonParse (jsonString responseText) = none →
      extractCouponsFromDocument js (fun _ => some responseText) originalName = errorResult) ∧
    (∀ v, jsonParse (jsonString responseText) = some v → js.stringifyThrows v = false →
      extractCouponsFromDocument js (fun _ => some responseText) originalName = v) ∧
    (∀ (pre post : String) (ms : List (List Nat × Json)),
      jsonParse responseText = some (.obj ms) → js.stringifyThrows (.obj ms) = false →
      (∀ c ∈ pre.toList, isJsWhitespace c = true) →
      (∀ c ∈ post.toList, isJsWhitespace c = true) →
      extractCouponsFromDocument js (fun _ => some responseText) originalName = .obj ms ∧
        extractCouponsFromDocument js
          (fun _ => some (pre ++ "```json\n" ++ responseText ++ "\n```" ++ post))
          originalName = .obj ms) := by
  refine ⟨?_, ?_, ?_, ?_⟩
  · cases h : jsonParse (jsonString responseText) with
    | none =>
      left
      simp only [extractCouponsFromDocument, h]
    | some v =>
      cases ht : js.stringifyThrows v with
      | true =>
        left
        simp only [extractCouponsFromDocument, h, ht, if_true]
      | false =>
        right
        simp only [extractCouponsFromDocument, h, ht, Bool.false_eq_true, if_false]
  · intro h
    simp only [extractCouponsFromDocument, h]
  · intro v h ht
    simp only [extractCouponsFromDocument, h, ht, Bool.false_eq_true, if_false]
  · intro pre post ms hparse ht hpre hpost
    have h1 := jsonString_of_fenced responseText pre post hpre hpost
    have h2 := jsonParse_jsonString_obj responseText ms hparse
    constructor
    · simp only [extractCouponsFromDocument, h2, ht, Bool.false_eq_true, if_false]
    · simp only [extractCouponsFromDocument, h1, hparse, ht, Bool.false_eq_true, if_false]

/-- Witness for C6: an object without a `coupons` array, between blanks, comes back
as parsed, alone and inside fences. -/
theorem extract_result_witness :
    jsonParse " \x7b\"offers\": []\x7d " = some (.obj [(utf16 "offers", .arr [])]) ∧
      refEngine.stringifyThrows (.obj [(utf16 "offers", .arr [])]) = false ∧
      extractCouponsFromDocument refEngine (fun _ => some " \x7b\"offers\": []\x7d ") "a.pdf" =
        .obj [(utf16 "offers", .arr [])] ∧
      extractCouponsFromDocument refEngine
        (fun _ => some ("\n" ++ "```json\n" ++ " \x7b\"offers\": []\x7d " ++ "\n```" ++ " "))
        "a.pdf" = .obj [(utf16 "offers", .arr [])] :=
  ⟨rfl, by decide!,
    (extract_result refEngine " \x7b\"offers\": []\x7d " "a.pdf").2.2.2 "\n" " "
      [(utf16 "offers", .arr [])] rfl (by decide!) (by decide) (by decide)⟩

/-- When logging the parsed value throws, the `catch` block answers with the error
result although the text was JSON. -/
theorem extract_error_when_logging_throws (js : JsEngine) (responseText originalName : String)
    (v : Json) (hparse : jsonParse (jsonString responseText) = some v)
    (hthrows : js.stringifyThrows v = true) :
    extractCouponsFromDocument js (fun _ => some responseText) originalName = errorResult := by
  simp only [extractCouponsFromDocument, hparse, hthrows, if_true]

end Swaply
